import Mathlib

/-!
Number partitioning heuristics (`partition.c`).

A shallow embedding of the C program and a verification of its residue
evaluator, its binary max-heap, the Karmarkar-Karp heuristic built on the heap,
and the three randomised local searches.

Modelling conventions:

* C arrays are lists read with `List.getD _ _ 0` and written with `List.set`;
  the compile-time constant `INTEGERS` is the parameter `N`, `MAX_ITERATIONS`
  the parameter `M`, and the implementation-defined `RAND_MAX` a parameter.
* A `long` is a 64-bit two's-complement integer. `karmarkar_karp` computes
  `labs(a - b)` on such values, with the wrap-around of the compiled code
  (`long_sub`, `labs`). The residue evaluator `standard_residue` is the exact
  sum over unbounded integers; `standard_residue_long` is its 64-bit value.
* The pseudo-random source is the list of the values that the successive calls
  of `rand()` return; a computation that asks for more values than the list
  holds has no result (`none`).
* A `while` loop is a function that recurses on an iteration budget; every
  caller supplies a budget the loop provably never exhausts.
-/

namespace Partition

/-! ## Random source -/

/-- One call of `rand()`: the next value of the random source. -/
def rand : List Nat → Option (Nat × List Nat)
  | [] => none
  | r :: rest => some (r, rest)

/-- The C function `randbool`: `rand() < (RAND_MAX/2)`, with the integer division of C. -/
def randbool (RAND_MAX : Nat) (draws : List Nat) : Option (Bool × List Nat) :=
  match rand draws with
  | none => none
  | some (r, rest) => some (decide (r < RAND_MAX / 2), rest)

/-- The conversion done by `randindex` on the value `r` returned by `rand()`:
`(int) ((((double) r)/((double) RAND_MAX))*INTEGERS)`, the floor of
`(r / RAND_MAX) * N`, computed in exact arithmetic. -/
def randindex_of (RAND_MAX N r : Nat) : Nat :=
  (r * N) / RAND_MAX

/-- The C function `randindex`: draws one value and scales it to an index. -/
def randindex (RAND_MAX N : Nat) (draws : List Nat) : Option (Nat × List Nat) :=
  match rand draws with
  | none => none
  | some (r, rest) => some (randindex_of RAND_MAX N r, rest)

/-! ## Heap -/

/-- The C type `struct heap`: the backing array, its capacity and the number of stored
elements. -/
structure heap where
  array : List Int
  capacity : Nat
  size : Nat
deriving DecidableEq, Repr

/-- The C function `heap_new`: an array of `capacity` slots (their initial content is never
read) and size 0. -/
def heap_new (capacity : Nat) : heap :=
  { array := List.replicate capacity 0, capacity := capacity, size := 0 }

/-- The C function `heap_parent`. -/
def heap_parent (current : Nat) : Nat := (current - 1) / 2

/-- The C function `heap_left`. -/
def heap_left (current : Nat) : Nat := (2 * current) + 1

/-- The C function `heap_right`. -/
def heap_right (current : Nat) : Nat := heap_left current + 1

/-- The C function `heap_swap`: exchanges the entries at `a` and `b`. -/
def heap_swap (h : heap) (a b : Nat) : heap :=
  let temp := h.array.getD a 0
  let array1 := h.array.set a (h.array.getD b 0)
  { h with array := array1.set b temp }

/-- The `while` loop of `heap_insert`: sifts the entry at `current` up while it
is not the root and its parent is smaller. The first argument bounds the number
of iterations; `current` iterations always suffice. -/
def heap_insert_loop : Nat → heap → Nat → heap
  | 0, h, _ => h
  | fuel + 1, h, current =>
    if current ≠ 0 ∧ h.array.getD (heap_parent current) 0 < h.array.getD current 0 then
      heap_insert_loop fuel (heap_swap h (heap_parent current) current) (heap_parent current)
    else h

/-- The C function `heap_insert`: at capacity the heap is returned as it is (the C code only
prints a message); otherwise the value is stored in the next free slot and
sifted up. -/
def heap_insert (h : heap) (value : Int) : heap :=
  if h.size = h.capacity then h
  else
    let h1 : heap := { h with array := h.array.set h.size value }
    let current := h.size
    let h2 : heap := { h1 with size := h1.size + 1 }
    heap_insert_loop current h2 current

/-- The C function `heapify`: the recursion of the C function, bounded by its first argument;
`size - start` calls always suffice since the index strictly increases. -/
def heapify_fuel : Nat → heap → Nat → heap
  | 0, h, _ => h
  | fuel + 1, h, start =>
    let left := heap_left start
    let right := heap_right start
    let max := start
    let max := if left < h.size ∧ h.array.getD left 0 > h.array.getD max 0 then left else max
    let max := if right < h.size ∧ h.array.getD right 0 > h.array.getD max 0 then right else max
    if max ≠ start then heapify_fuel fuel (heap_swap h start max) max
    else h

/-- The C call `heapify(heap, start)`, with the bound its recursion needs. -/
def heapify (h : heap) (start : Nat) : heap :=
  heapify_fuel (h.size - start) h start

/-- The C function `heap_deletemax`: `none` stands for the `exit(1)` taken on an empty heap;
otherwise the root is returned together with the heap after the last element
has been moved to the root and sifted down. -/
def heap_deletemax (h : heap) : Option (Int × heap) :=
  if h.size = 0 then none
  else
    let max := h.array.getD 0 0
    let h1 : heap := { h with size := h.size - 1 }
    let h2 : heap := { h1 with array := h1.array.set 0 (h1.array.getD h1.size 0) }
    some (max, heapify h2 0)

/-- The elements stored in the heap: the first `size` slots of the array. -/
def heap_elements (h : heap) : List Int := h.array.take h.size

/-- Max-heap order on the stored elements: every parent is at least each of
its children. -/
def max_heap_order (h : heap) : Prop :=
  ∀ i, i < h.size →
    (heap_left i < h.size → h.array.getD (heap_left i) 0 ≤ h.array.getD i 0) ∧
    (heap_right i < h.size → h.array.getD (heap_right i) 0 ≤ h.array.getD i 0)

instance (h : heap) : Decidable (max_heap_order h) := by
  unfold max_heap_order; infer_instance

/-- The layout `heap_new` establishes and every operation keeps: the array has
`capacity` slots and at most `capacity` of them are in use. -/
def heap_wf (h : heap) : Prop :=
  h.array.length = h.capacity ∧ h.size ≤ h.capacity

instance (h : heap) : Decidable (heap_wf h) := by
  unfold heap_wf; infer_instance

/-! ## Arithmetic on `long` -/

/-- The largest `long`, `2^63 - 1`. -/
def LONG_MAX : Int := 9223372036854775807

/-- The smallest `long`, `-2^63`. -/
def LONG_MIN : Int := -9223372036854775808

/-- The `long` that holds the low 64 bits of the exact result `x` of an
operation: `x` itself when `LONG_MIN ≤ x ≤ LONG_MAX`, else `x` shifted by a
multiple of `2^64` into that range. -/
def long_wrap (x : Int) : Int :=
  (x + 9223372036854775808) % 18446744073709551616 - 9223372036854775808

/-- The C expression `a - b` on `long` operands. -/
def long_sub (a b : Int) : Int := long_wrap (a - b)

/-- The C expression `a + b` on `long` operands. -/
def long_add (a b : Int) : Int := long_wrap (a + b)

/-- The C expression `a * b` on `long` operands. -/
def long_mul (a b : Int) : Int := long_wrap (a * b)

/-- The C library function `labs` on a `long`: the absolute value, and
`LONG_MIN` on `LONG_MIN`, whose absolute value no `long` holds. -/
def labs (x : Int) : Int := long_wrap |x|

/-! ## Karmarkar-Karp -/

/-- The `while (heap->size >= 2)` loop of `karmarkar_karp`. `none` is the
`exit(1)` of `heap_deletemax`, or an exhausted iteration budget (`size`
iterations always suffice). -/
def karmarkar_karp_loop : Nat → heap → Option heap
  | 0, h => if 2 ≤ h.size then none else some h
  | fuel + 1, h =>
    if 2 ≤ h.size then
      match heap_deletemax h with
      | none => none
      | some (a, h1) =>
        match heap_deletemax h1 with
        | none => none
        | some (b, h2) => karmarkar_karp_loop fuel (heap_insert h2 (labs (long_sub a b)))
    else some h

/-- The C function `karmarkar_karp`: inserts `A[0..N)` in index order into a heap of capacity
`N`, runs the differencing loop and returns the last element. -/
def karmarkar_karp (N : Nat) (A : List Int) : Option Int :=
  let h := (List.range N).foldl (fun h i => heap_insert h (A.getD i 0)) (heap_new N)
  match karmarkar_karp_loop h.size h with
  | none => none
  | some h1 =>
    match heap_deletemax h1 with
    | none => none
    | some (result, _) => some result

/-- The reference procedure of the specification on a list of values: while at
least two values remain, remove the two largest `a ≥ b` and add `|a - b|`; when
exactly one value remains, return it. The first argument bounds the number of
rounds. -/
def kk_reference_fuel : Nat → List Int → Option Int
  | 0, l => match l with
    | [x] => some x
    | _ => none
  | fuel + 1, l =>
    if 2 ≤ l.length then
      match l.max? with
      | none => none
      | some a =>
        match (l.erase a).max? with
        | none => none
        | some b => kk_reference_fuel fuel (|a - b| :: (l.erase a).erase b)
    else match l with
      | [x] => some x
      | _ => none

/-- The reference procedure, with one round per value. -/
def kk_reference (l : List Int) : Option Int :=
  kk_reference_fuel l.length l

/-- The procedure `kk_reference_fuel` with the value `f a b` added in each round
in place of `|a - b|`. -/
def kk_reference_with (f : Int → Int → Int) : Nat → List Int → Option Int
  | 0, l => match l with
    | [x] => some x
    | _ => none
  | fuel + 1, l =>
    if 2 ≤ l.length then
      match l.max? with
      | none => none
      | some a =>
        match (l.erase a).max? with
        | none => none
        | some b => kk_reference_with f fuel (f a b :: (l.erase a).erase b)
    else match l with
      | [x] => some x
      | _ => none

/-! ## Solutions and residues -/

/-- The `for` loop of `standard_generate`: `n` more signs, each `1` or `-1` by
`randbool`, stored at the next index. -/
def standard_generate_loop (RAND_MAX : Nat) :
    Nat → List Int → List Nat → Option (List Int × List Nat)
  | 0, S, draws => some (S, draws)
  | n + 1, S, draws =>
    match randbool RAND_MAX draws with
    | none => none
    | some (b, rest) => standard_generate_loop RAND_MAX n (S ++ [if b then 1 else -1]) rest

/-- The C function `standard_generate`: a fresh solution of `N` random signs. -/
def standard_generate (RAND_MAX N : Nat) (draws : List Nat) : Option (List Int × List Nat) :=
  standard_generate_loop RAND_MAX N [] draws

/-- The C function `standard_residue`: `labs` of the sum of `S[i]*A[i]` over `i` in `[0, N)`. -/
def standard_residue (N : Nat) (A S : List Int) : Int :=
  let residue := (List.range N).foldl (fun residue i => residue + S.getD i 0 * A.getD i 0) 0
  |residue|

/-- The C function `standard_residue` in the 64-bit arithmetic of `long`: every
product and every sum is reduced by `long_wrap`, and so is `labs`. -/
def standard_residue_long (N : Nat) (A S : List Int) : Int :=
  let residue := (List.range N).foldl
    (fun residue i => long_add residue (long_mul (S.getD i 0) (A.getD i 0))) 0
  labs residue

/-- The signed sum of `A` under the signs `S`, taken position by position. -/
def signed_sum (S A : List Int) : Int := (List.zipWith (· * ·) S A).sum

/-- A sign assignment: every entry is `1` or `-1`. -/
def is_signs (S : List Int) : Prop := ∀ s ∈ S, s = 1 ∨ s = -1

instance (S : List Int) : Decidable (is_signs S) := by
  unfold is_signs; infer_instance

/-- The index `i` lies in the subtree rooted at `s`: it is `s`, or its parent
lies in that subtree. -/
inductive in_subtree (s : Nat) : Nat → Prop
  | root : in_subtree s s
  | child {i : Nat} : 0 < i → in_subtree s (heap_parent i) → in_subtree s i

/-- Max-heap order stated child by child: every entry but the root is at most
its parent. -/
def parent_order (h : heap) : Prop :=
  ∀ i, 0 < i → i < h.size → h.array.getD i 0 ≤ h.array.getD (heap_parent i) 0

/-- The index `heapify` selects at `start`: the larger child when it is in the
heap and exceeds the entry at `start` (the left one on a tie), else `start`. -/
def heapify_max (h : heap) (start : Nat) : Nat :=
  let left := heap_left start
  let right := heap_right start
  let max := start
  let max := if left < h.size ∧ h.array.getD left 0 > h.array.getD max 0 then left else max
  let max := if right < h.size ∧ h.array.getD right 0 > h.array.getD max 0 then right else max
  max

/-- The part of `karmarkar_karp` that follows the insertions: the differencing
loop and the final `heap_deletemax`. -/
def karmarkar_karp_from (fuel : Nat) (h : heap) : Option Int :=
  match karmarkar_karp_loop fuel h with
  | none => none
  | some h1 =>
    match heap_deletemax h1 with
    | none => none
    | some (result, _) => some result

/-- The heap after the first `k` insertions of `karmarkar_karp`. -/
def karmarkar_karp_build (N : Nat) (A : List Int) (k : Nat) : heap :=
  (List.range k).foldl (fun h i => heap_insert h (A.getD i 0)) (heap_new N)

/-! ## Neighbours and local search -/

/-- The statement `Sprime[i] = -Sprime[i]` on an array of `N` slots. An index
outside the array has no defined behaviour in C: no result. -/
def flip_sign (N : Nat) (Sprime : List Int) (i : Nat) : Option (List Int) :=
  if i < N then some (Sprime.set i (-(Sprime.getD i 0))) else none

/-- The `do j = randindex(); while (j == i);` loop of `standard_neighbor`: each
round consumes one value of the random source; the loop ends at the first index
other than `i`. -/
def standard_neighbor_loop (RAND_MAX N i : Nat) : List Nat → Option (Nat × List Nat)
  | [] => none
  | r :: rest =>
    let j := randindex_of RAND_MAX N r
    if j = i then standard_neighbor_loop RAND_MAX N i rest else some (j, rest)

/-- The C function `standard_neighbor`: a copy of the `N` entries of `S` with the sign at a
random index flipped and, when `randbool` says so, the sign at a second,
different random index flipped too. -/
def standard_neighbor (RAND_MAX N : Nat) (S : List Int) (draws : List Nat) :
    Option (List Int × List Nat) :=
  let Sprime := S.take N
  match randindex RAND_MAX N draws with
  | none => none
  | some (i, draws1) =>
    match flip_sign N Sprime i with
    | none => none
    | some Sprime1 =>
      match randbool RAND_MAX draws1 with
      | none => none
      | some (false, draws2) => some (Sprime1, draws2)
      | some (true, draws2) =>
        match standard_neighbor_loop RAND_MAX N i draws2 with
        | none => none
        | some (j, draws3) =>
          match flip_sign N Sprime1 j with
          | none => none
          | some Sprime2 => some (Sprime2, draws3)

/-- The `for` loop of `repeated_random`, `n` iterations from the solution `S`. -/
def repeated_random_loop (RAND_MAX N : Nat) (A : List Int) :
    Nat → List Int → List Nat → Option (List Int × List Nat)
  | 0, S, draws => some (S, draws)
  | n + 1, S, draws =>
    match standard_generate RAND_MAX N draws with
    | none => none
    | some (Sprime, rest) =>
      if standard_residue N A Sprime < standard_residue N A S then
        repeated_random_loop RAND_MAX N A n Sprime rest
      else repeated_random_loop RAND_MAX N A n S rest

/-- The C function `repeated_random` with `M` iterations. -/
def repeated_random (RAND_MAX N M : Nat) (A : List Int) (draws : List Nat) : Option Int :=
  match standard_generate RAND_MAX N draws with
  | none => none
  | some (S, rest) =>
    match repeated_random_loop RAND_MAX N A M S rest with
    | none => none
    | some (S1, _) => some (standard_residue N A S1)

/-- The `for` loop of `hill_climbing`, `n` iterations from the solution `S`. -/
def hill_climbing_loop (RAND_MAX N : Nat) (A : List Int) :
    Nat → List Int → List Nat → Option (List Int × List Nat)
  | 0, S, draws => some (S, draws)
  | n + 1, S, draws =>
    match standard_neighbor RAND_MAX N S draws with
    | none => none
    | some (Sprime, rest) =>
      if standard_residue N A Sprime < standard_residue N A S then
        hill_climbing_loop RAND_MAX N A n Sprime rest
      else hill_climbing_loop RAND_MAX N A n S rest

/-- The C function `hill_climbing` with `M` iterations. -/
def hill_climbing (RAND_MAX N M : Nat) (A : List Int) (draws : List Nat) : Option Int :=
  match standard_generate RAND_MAX N draws with
  | none => none
  | some (S, rest) =>
    match hill_climbing_loop RAND_MAX N A M S rest with
    | none => none
    | some (S1, _) => some (standard_residue N A S1)

/-- The acceptance test of `simulated_annealing` in iteration `i`:
`Sprime_residue < S_residue || rand() < exp(-(Sprime_residue - S_residue)/T(i))*RAND_MAX`.
The second disjunct is evaluated, and draws from the random source, only when
the first is false. Its floating-point comparison is the parameter `accept`,
a function of the iteration, the residue difference and the value drawn. -/
def simulated_annealing_accept (accept : Nat → Int → Nat → Bool) (i : Nat)
    (S_residue Sprime_residue : Int) (draws : List Nat) : Option (Bool × List Nat) :=
  if Sprime_residue < S_residue then some (true, draws)
  else
    match rand draws with
    | none => none
    | some (r, rest) => some (accept i (Sprime_residue - S_residue) r, rest)

/-- One iteration of the `for` loop of `simulated_annealing`, from the walker
`S` and the incumbent `Sprimeprime`. -/
def simulated_annealing_step (accept : Nat → Int → Nat → Bool) (RAND_MAX N : Nat)
    (A : List Int) (i : Nat) (S Sprimeprime : List Int) (draws : List Nat) :
    Option (List Int × List Int × List Nat) :=
  match standard_neighbor RAND_MAX N S draws with
  | none => none
  | some (Sprime, draws1) =>
    let S_residue := standard_residue N A S
    let Sprime_residue := standard_residue N A Sprime
    match simulated_annealing_accept accept i S_residue Sprime_residue draws1 with
    | none => none
    | some (accepted, draws2) =>
      let S1 := if accepted then Sprime else S
      let Sprimeprime1 :=
        if standard_residue N A S1 < standard_residue N A Sprimeprime then S1
        else Sprimeprime
      some (S1, Sprimeprime1, draws2)

/-- The `for` loop of `simulated_annealing`: `n` iterations, the next one
having index `i`. -/
def simulated_annealing_loop (accept : Nat → Int → Nat → Bool) (RAND_MAX N : Nat)
    (A : List Int) : Nat → Nat → List Int → List Int → List Nat →
    Option (List Int × List Int × List Nat)
  | 0, _, S, Sprimeprime, draws => some (S, Sprimeprime, draws)
  | n + 1, i, S, Sprimeprime, draws =>
    match simulated_annealing_step accept RAND_MAX N A i S Sprimeprime draws with
    | none => none
    | some (S1, Sprimeprime1, rest) =>
      simulated_annealing_loop accept RAND_MAX N A n (i + 1) S1 Sprimeprime1 rest

/-- The C function `simulated_annealing` with `M` iterations. -/
def simulated_annealing (accept : Nat → Int → Nat → Bool) (RAND_MAX N M : Nat)
    (A : List Int) (draws : List Nat) : Option Int :=
  match standard_generate RAND_MAX N draws with
  | none => none
  | some (S, rest) =>
    match simulated_annealing_loop accept RAND_MAX N A M 0 S S rest with
    | none => none
    | some (_, Sprimeprime, _) => some (standard_residue N A Sprimeprime)

/-! ## Dispatch -/

/-- How a run of `main` ends: it returns an exit code after printing at most
one residue; or it calls through a slot outside the table `ALGORITHMS`, which
has no defined behaviour; or the selected algorithm returns nothing. -/
inductive main_outcome where
  | exit (code : Nat) (printed : Option Int)
  | call_outside_table
  | no_result
deriving DecidableEq, Repr

/-- The table `ALGORITHMS`: its four entries, at the indices `KARMARKAR_KARP`
= 0, `REPEATED_RANDOM` = 1, `HILL_CLIMBING` = 2 and `SIMULATED_ANNEALING` = 3. -/
def ALGORITHMS (accept : Nat → Int → Nat → Bool) (RAND_MAX N M : Nat) :
    List (List Int → List Nat → Option Int) :=
  [fun A _ => karmarkar_karp N A,
   fun A draws => repeated_random RAND_MAX N M A draws,
   fun A draws => hill_climbing RAND_MAX N M A draws,
   fun A draws => simulated_annealing accept RAND_MAX N M A draws]

/-- The C function `main`. `argc` is the argument count, `algorithm` the value
of `atoi(argv[2])`, `input` the integers that `fscanf` reads from the input
file in order (`none` when `fopen` fails). The program returns 1 on a usage
error, an unreadable file or fewer than `N` integers; otherwise it calls
`ALGORITHMS[algorithm](A)`, without any test on `algorithm`, prints the result
and returns 0. -/
def main (accept : Nat → Int → Nat → Bool) (RAND_MAX N M : Nat) (argc : Nat)
    (algorithm : Int) (input : Option (List Int)) (draws : List Nat) : main_outcome :=
  if argc < 4 then main_outcome.exit 1 none
  else
    match input with
    | none => main_outcome.exit 1 none
    | some numbers =>
      if numbers.length < N then main_outcome.exit 1 none
      else
        let A := numbers.take N
        if algorithm < 0 then main_outcome.call_outside_table
        else
          match (ALGORITHMS accept RAND_MAX N M)[algorithm.toNat]? with
          | none => main_outcome.call_outside_table
          | some f =>
            match f A draws with
            | none => main_outcome.no_result
            | some residue => main_outcome.exit 0 (some residue)

/-! ## Calls of the heap operations made by Karmarkar-Karp -/

/-- A call of a heap operation, with the size (and, for `heap_insert`, the
capacity) of the heap at the moment of the call. -/
inductive heap_call where
  | insert (size capacity : Nat)
  | deletemax (size : Nat)
deriving DecidableEq, Repr

/-- The call takes the error branch of its operation: `heap_insert` at
capacity, `heap_deletemax` on an empty heap. -/
def heap_call.takes_error_branch : heap_call → Bool
  | heap_call.insert size capacity => decide (size = capacity)
  | heap_call.deletemax size => decide (size = 0)

/-- The loop `karmarkar_karp_loop`, which in addition appends its calls of the
heap operations to `calls` and counts its iterations in `rounds`. -/
def karmarkar_karp_loop_traced :
    Nat → heap → List heap_call → Nat → Option (heap × List heap_call × Nat)
  | 0, h, calls, rounds => if 2 ≤ h.size then none else some (h, calls, rounds)
  | fuel + 1, h, calls, rounds =>
    if 2 ≤ h.size then
      match heap_deletemax h with
      | none => none
      | some (a, h1) =>
        match heap_deletemax h1 with
        | none => none
        | some (b, h2) =>
          karmarkar_karp_loop_traced fuel (heap_insert h2 (labs (long_sub a b)))
            (calls ++ [heap_call.deletemax h.size, heap_call.deletemax h1.size,
              heap_call.insert h2.size h2.capacity])
            (rounds + 1)
    else some (h, calls, rounds)

/-- The insertions of `karmarkar_karp` up to index `k`, with the calls made. -/
def karmarkar_karp_build_traced (N : Nat) (A : List Int) (k : Nat) : heap × List heap_call :=
  (List.range k).foldl
    (fun p i => (heap_insert p.1 (A.getD i 0), p.2 ++ [heap_call.insert p.1.size p.1.capacity]))
    (heap_new N, [])

/-- The function `karmarkar_karp`, which in addition returns the list of its
calls of the heap operations, in order, and the number of iterations of its
main loop. -/
def karmarkar_karp_traced (N : Nat) (A : List Int) : Option (Int × List heap_call × Nat) :=
  let p := karmarkar_karp_build_traced N A N
  match karmarkar_karp_loop_traced p.1.size p.1 p.2 0 with
  | none => none
  | some (h1, calls, rounds) =>
    match heap_deletemax h1 with
    | none => none
    | some (result, _) => some (result, calls ++ [heap_call.deletemax h1.size], rounds)

/-- The calls made by `j` iterations of the main loop on a heap of `j + 1`
elements and capacity `N`: two removals and one insertion per iteration. -/
def kk_loop_calls (N : Nat) : Nat → List heap_call
  | 0 => []
  | j + 1 =>
    [heap_call.deletemax (j + 2), heap_call.deletemax (j + 1), heap_call.insert j N] ++
      kk_loop_calls N j

/-- All the calls of the heap operations in `karmarkar_karp` on `N` values. -/
def kk_calls (N : Nat) : List heap_call :=
  (List.range N).map (fun k => heap_call.insert k N) ++ kk_loop_calls N (N - 1) ++
    [heap_call.deletemax 1]

/-- Max-heap order inside the subtree rooted at `s`: every stored entry of the
subtree is at least each of its children. -/
def subtree_heap_order (h : heap) (s : Nat) : Prop :=
  ∀ i, in_subtree s i → i < h.size →
    (heap_left i < h.size → h.array.getD (heap_left i) 0 ≤ h.array.getD i 0) ∧
    (heap_right i < h.size → h.array.getD (heap_right i) 0 ≤ h.array.getD i 0)

/-! ## Candidates and walker positions of a run -/

/-- The solutions that `k` successive calls of `standard_generate` produce. -/
def repeated_random_candidates (RAND_MAX N : Nat) : Nat → List Nat → Option (List (List Int))
  | 0, _ => some []
  | k + 1, draws =>
    match standard_generate RAND_MAX N draws with
    | none => none
    | some (S, rest) =>
      match repeated_random_candidates RAND_MAX N k rest with
      | none => none
      | some candidates => some (S :: candidates)

/-- The walker of `simulated_annealing` after each of `n` iterations, the
first of them having index `i`. -/
def simulated_annealing_walkers (accept : Nat → Int → Nat → Bool) (RAND_MAX N : Nat)
    (A : List Int) : Nat → Nat → List Int → List Int → List Nat → Option (List (List Int))
  | 0, _, _, _, _ => some []
  | n + 1, i, S, Sprimeprime, draws =>
    match simulated_annealing_step accept RAND_MAX N A i S Sprimeprime draws with
    | none => none
    | some (S1, Sprimeprime1, rest) =>
      match simulated_annealing_walkers accept RAND_MAX N A n (i + 1) S1 Sprimeprime1 rest with
      | none => none
      | some walkers => some (S1 :: walkers)

/-- The inputs on which no difference taken by `karmarkar_karp` leaves the
range of `long`: every entry is a non-negative `long`, or the absolute values
of the entries sum to at most `LONG_MAX`. -/
def kk_in_range (l : List Int) : Prop :=
  (∀ x ∈ l, 0 ≤ x ∧ x ≤ LONG_MAX) ∨ (l.map (fun a => |a|)).sum ≤ LONG_MAX

/-- A random source on which every call of `standard_neighbor` returns after
at most three draws: no value is `RAND_MAX` (so every index is below `N`), and
whenever a value gives a true coin in `randbool`, the value after it gives
another index than the value before it (so the `do`-`while` loop of
`standard_neighbor` ends at its first draw). -/
def neighbor_draws_ok (RAND_MAX N : Nat) (draws : List Nat) : Prop :=
  (∀ r ∈ draws, r < RAND_MAX) ∧
  ∀ k, k < draws.length - 2 → draws.getD (k + 1) 0 < RAND_MAX / 2 →
    randindex_of RAND_MAX N (draws.getD (k + 2) 0) ≠ randindex_of RAND_MAX N (draws.getD k 0)

instance (RAND_MAX N : Nat) (draws : List Nat) :
    Decidable (neighbor_draws_ok RAND_MAX N draws) := by
  unfold neighbor_draws_ok; infer_instance

/-! ## Residue evaluator -/

theorem foldl_add_eq_sum (f : Nat → Int) (l : List Nat) (a : Int) :
    l.foldl (fun r i => r + f i) a = a + (l.map f).sum := by
  induction l generalizing a with
  | nil => simp
  | cons x t ih => simp [ih, add_assoc]

theorem range_sum_eq_signed_sum (A S : List Int) (N : Nat)
    (hA : A.length = N) (hS : S.length = N) :
    ((List.range N).map (fun i => S.getD i 0 * A.getD i 0)).sum = signed_sum S A := by
  induction A generalizing S N with
  | nil =>
    subst hA
    simp [signed_sum]
  | cons a A ih =>
    cases S with
    | nil => subst hS; simp at hA
    | cons s S =>
      cases N with
      | zero => simp at hA
      | succ n =>
        have hA1 : A.length = n := by simpa using hA
        have hS1 : S.length = n := by simpa using hS
        have := ih S n hA1 hS1
        rw [List.range_succ_eq_map]
        simp only [List.map_cons, List.map_map, List.sum_cons]
        simp only [signed_sum, List.zipWith_cons_cons, List.sum_cons] at this ⊢
        rw [← this]
        simp [Function.comp_def]

theorem standard_residue_eq (N : Nat) (A S : List Int)
    (hA : A.length = N) (hS : S.length = N) :
    standard_residue N A S = |signed_sum S A| := by
  unfold standard_residue
  simp only
  rw [foldl_add_eq_sum, zero_add, range_sum_eq_signed_sum A S N hA hS]

theorem abs_signed_sum_le (A S : List Int) (hlen : S.length = A.length)
    (hS : is_signs S) :
    |signed_sum S A| ≤ (A.map (fun a => |a|)).sum := by
  induction A generalizing S with
  | nil => simp [signed_sum]
  | cons a A ih =>
    cases S with
    | nil => simp at hlen
    | cons s S =>
      have h1 : S.length = A.length := by simpa using hlen
      have h2 : is_signs S := fun x hx => hS x (List.mem_cons_of_mem _ hx)
      have h3 := ih S h1 h2
      have hs : |s * a| = |a| := by
        rcases hS s (List.mem_cons_self _ _) with h | h <;> simp [h]
      simp only [signed_sum, List.zipWith_cons_cons, List.sum_cons, List.map_cons] at h3 ⊢
      calc |s * a + (List.zipWith (· * ·) S A).sum|
          ≤ |s * a| + |(List.zipWith (· * ·) S A).sum| := abs_add _ _
        _ ≤ |a| + (A.map (fun a => |a|)).sum := by rw [hs]; exact add_le_add le_rfl h3

theorem signed_sum_parity (A S : List Int) (hlen : S.length = A.length)
    (hS : is_signs S) :
    signed_sum S A % 2 = A.sum % 2 := by
  induction A generalizing S with
  | nil => simp [signed_sum]
  | cons a A ih =>
    cases S with
    | nil => simp at hlen
    | cons s S =>
      have h1 : S.length = A.length := by simpa using hlen
      have h2 : is_signs S := fun x hx => hS x (List.mem_cons_of_mem _ hx)
      have h3 := ih S h1 h2
      simp only [signed_sum, List.zipWith_cons_cons, List.sum_cons] at h3 ⊢
      rcases hS s (List.mem_cons_self _ _) with h | h
      · subst h; omega
      · subst h; omega

theorem abs_emod_two (x : Int) : |x| % 2 = x % 2 := by
  rcases abs_cases x with ⟨h, _⟩ | ⟨h, _⟩
  · rw [h]
  · rw [h]; omega

/-- C1. For an input `A` and a sign assignment `S` of the same length `N` with
entries `1` or `-1`, the residue lies between `0` and the sum of the absolute
values of the entries of `A`. -/
theorem standard_residue_bounds (N : Nat) (A S : List Int)
    (hA : A.length = N) (hS : S.length = N) (hsign : is_signs S) :
    0 ≤ standard_residue N A S ∧ standard_residue N A S ≤ (A.map (fun a => |a|)).sum := by
  rw [standard_residue_eq N A S hA hS]
  exact ⟨abs_nonneg _, abs_signed_sum_le A S (hS.trans hA.symm) hsign⟩

theorem standard_residue_bounds_witness :
    0 ≤ standard_residue 3 [4, -7, 2] [1, -1, -1] ∧
      standard_residue 3 [4, -7, 2] [1, -1, -1] ≤ ([4, -7, 2].map (fun a : Int => |a|)).sum :=
  standard_residue_bounds 3 [4, -7, 2] [1, -1, -1] (by decide) (by decide) (by decide)

/-- C2. For an input `A` and a sign assignment `S` of the same length `N` with
entries `1` or `-1`, the residue has the parity of the plain sum of `A`. -/
theorem standard_residue_parity (N : Nat) (A S : List Int)
    (hA : A.length = N) (hS : S.length = N) (hsign : is_signs S) :
    standard_residue N A S % 2 = A.sum % 2 := by
  rw [standard_residue_eq N A S hA hS, abs_emod_two]
  exact signed_sum_parity A S (hS.trans hA.symm) hsign

theorem standard_residue_parity_witness :
    standard_residue 3 [4, -7, 2] [1, -1, -1] % 2 = ([4, -7, 2] : List Int).sum % 2 :=
  standard_residue_parity 3 [4, -7, 2] [1, -1, -1] (by decide) (by decide) (by decide)

/-! ## Heap: exchanging two entries -/

theorem cons_set_perm (l : List Int) (j : Nat) (y : Int) (hj : j < l.length) :
    (l.getD j 0 :: l.set j y).Perm (y :: l) := by
  induction l generalizing j with
  | nil => simp at hj
  | cons a t ih =>
    cases j with
    | zero => simpa using List.Perm.swap y a t
    | succ j =>
      have hj1 : j < t.length := by simpa using hj
      have h1 := ih j hj1
      simp only [List.getD_cons_succ, List.set_cons_succ]
      exact (List.Perm.swap a (t.getD j 0) (t.set j y)).trans
        ((h1.cons a).trans (List.Perm.swap y a t))

theorem set_set_getD_perm (l : List Int) (i j : Nat) (hi : i < l.length) (hj : j < l.length) :
    ((l.set i (l.getD j 0)).set j (l.getD i 0)).Perm l := by
  induction l generalizing i j with
  | nil => simp at hi
  | cons a t ih =>
    cases i with
    | zero =>
      cases j with
      | zero => simp
      | succ j =>
        have hj1 : j < t.length := by simpa using hj
        simpa using cons_set_perm t j a hj1
    | succ i =>
      have hi1 : i < t.length := by simpa using hi
      cases j with
      | zero => simpa using cons_set_perm t i a hi1
      | succ j =>
        have hj1 : j < t.length := by simpa using hj
        simpa using ih i j hi1 hj1

theorem getD_take_of_lt (l : List Int) (n i : Nat) (h : i < n) :
    (l.take n).getD i 0 = l.getD i 0 := by
  simp [List.getD_eq_getElem?_getD, List.getElem?_take, h]

theorem heap_swap_size (h : heap) (a b : Nat) : (heap_swap h a b).size = h.size := rfl

theorem heap_swap_capacity (h : heap) (a b : Nat) :
    (heap_swap h a b).capacity = h.capacity := rfl

theorem heap_swap_length (h : heap) (a b : Nat) :
    (heap_swap h a b).array.length = h.array.length := by
  simp [heap_swap]

theorem heap_swap_getD (h : heap) (a b k : Nat)
    (ha : a < h.array.length) (hb : b < h.array.length) :
    (heap_swap h a b).array.getD k 0 =
      if k = b then h.array.getD a 0 else if k = a then h.array.getD b 0
      else h.array.getD k 0 := by
  simp only [heap_swap, List.getD_eq_getElem?_getD, List.getElem?_set, List.length_set]
  by_cases hkb : k = b
  · subst hkb; simp [hb]
  · by_cases hka : k = a
    · subst hka
      simp [hkb, ha, Ne.symm hkb]
    · simp [hkb, hka, Ne.symm hkb, Ne.symm hka]

theorem heap_swap_elements (h : heap) (a b : Nat) (ha : a < h.size) (hb : b < h.size)
    (hlen : h.size ≤ h.array.length) :
    (heap_elements (heap_swap h a b)).Perm (heap_elements h) := by
  have e : heap_elements (heap_swap h a b) =
      (((h.array.take h.size).set a ((h.array.take h.size).getD b 0)).set b
        ((h.array.take h.size).getD a 0)) := by
    simp only [heap_elements, heap_swap, List.set_take]
    rw [getD_take_of_lt _ _ _ ha, getD_take_of_lt _ _ _ hb]
  rw [e]
  apply set_set_getD_perm
  · simp; omega
  · simp; omega

/-! ## Heap: order through the parent -/

theorem heap_parent_lt (i : Nat) (h : 0 < i) : heap_parent i < i := by
  unfold heap_parent; omega

theorem heap_parent_left (i : Nat) : heap_parent (heap_left i) = i := by
  unfold heap_parent heap_left; omega

theorem heap_parent_right (i : Nat) : heap_parent (heap_right i) = i := by
  unfold heap_parent heap_right heap_left; omega

theorem eq_child_of_parent (i : Nat) (h : 0 < i) :
    i = heap_left (heap_parent i) ∨ i = heap_right (heap_parent i) := by
  unfold heap_parent heap_right heap_left; omega

theorem max_heap_order_iff (h : heap) : max_heap_order h ↔ parent_order h := by
  constructor
  · intro H i hi hlt
    have hp := heap_parent_lt i hi
    have := H (heap_parent i) (by omega)
    rcases eq_child_of_parent i hi with e | e
    · have h1 := this.1 (by rw [← e]; exact hlt)
      rwa [← e] at h1
    · have h1 := this.2 (by rw [← e]; exact hlt)
      rwa [← e] at h1
  · intro H i _
    constructor
    · intro hl
      have := H (heap_left i) (by unfold heap_left; omega) hl
      rwa [heap_parent_left] at this
    · intro hr
      have := H (heap_right i) (by unfold heap_right heap_left; omega) hr
      rwa [heap_parent_right] at this

theorem root_is_max (h : heap) (H : parent_order h) :
    ∀ i, i < h.size → h.array.getD i 0 ≤ h.array.getD 0 0 := by
  intro i
  induction i using Nat.strong_induction_on with
  | _ i ih =>
    intro hi
    rcases Nat.eq_zero_or_pos i with h0 | hpos
    · subst h0; exact le_rfl
    · have hp := heap_parent_lt i hpos
      exact le_trans (H i hpos hi) (ih _ hp (by omega))

/-! ## Heap: insertion -/

theorem heap_insert_loop_correct (fuel : Nat) :
    ∀ (h : heap) (c : Nat), c ≤ fuel → c < h.size → h.size ≤ h.array.length →
      (∀ i, 0 < i → i < h.size → i ≠ c →
        h.array.getD i 0 ≤ h.array.getD (heap_parent i) 0) →
      (∀ i, 0 < i → i < h.size → heap_parent i = c → 0 < c →
        h.array.getD i 0 ≤ h.array.getD (heap_parent c) 0) →
      (heap_insert_loop fuel h c).size = h.size ∧
      (heap_insert_loop fuel h c).capacity = h.capacity ∧
      (heap_insert_loop fuel h c).array.length = h.array.length ∧
      (heap_elements (heap_insert_loop fuel h c)).Perm (heap_elements h) ∧
      parent_order (heap_insert_loop fuel h c) := by
  induction fuel with
  | zero =>
    intro h c hc _ _ H1 _
    have hc0 : c = 0 := by omega
    subst hc0
    refine ⟨rfl, rfl, rfl, List.Perm.refl _, ?_⟩
    intro i hi hlt
    exact H1 i hi hlt (by omega)
  | succ fuel ih =>
    intro h c hc hcs hlen H1 H2
    unfold heap_insert_loop
    split_ifs with hcond
    · obtain ⟨hc0, hlt⟩ := hcond
      have hcpos : 0 < c := Nat.pos_of_ne_zero hc0
      have hp := heap_parent_lt c hcpos
      have hpl : heap_parent c < h.array.length := by omega
      have hcl : c < h.array.length := by omega
      have G : ∀ k, (heap_swap h (heap_parent c) c).array.getD k 0 =
          if k = c then h.array.getD (heap_parent c) 0
          else if k = heap_parent c then h.array.getD c 0 else h.array.getD k 0 :=
        fun k => heap_swap_getD h (heap_parent c) c k hpl hcl
      have R := ih (heap_swap h (heap_parent c) c) (heap_parent c) (by omega)
        (by rw [heap_swap_size]; omega)
        (by rw [heap_swap_size, heap_swap_length]; exact hlen)
        (by
          intro i hi hin hne
          rw [heap_swap_size] at hin
          rw [G i, G (heap_parent i)]
          have hpi := heap_parent_lt i hi
          by_cases hic : i = c
          · subst hic
            rw [if_pos rfl, if_neg (by omega), if_pos rfl]
            exact le_of_lt hlt
          · rw [if_neg hic, if_neg hne]
            by_cases hpc : heap_parent i = c
            · rw [if_pos hpc]
              exact H2 i hi hin hpc hcpos
            · rw [if_neg hpc]
              by_cases hpp : heap_parent i = heap_parent c
              · rw [if_pos hpp]
                have := H1 i hi hin hic
                rw [hpp] at this
                exact le_trans this (le_of_lt hlt)
              · rw [if_neg hpp]
                exact H1 i hi hin hic)
        (by
          intro i hi hin hpi hppos
          rw [heap_swap_size] at hin
          rw [G i, G (heap_parent (heap_parent c))]
          have hpp := heap_parent_lt (heap_parent c) hppos
          rw [if_neg (show heap_parent (heap_parent c) ≠ c by omega),
            if_neg (show heap_parent (heap_parent c) ≠ heap_parent c by omega)]
          have hpc := H1 (heap_parent c) hppos (by omega) (by omega)
          by_cases hic : i = c
          · rw [if_pos hic]; exact hpc
          · rw [if_neg hic]
            have hipar := heap_parent_lt i hi
            rw [if_neg (show i ≠ heap_parent c by omega)]
            have := H1 i hi hin hic
            rw [hpi] at this
            exact le_trans this hpc)
      obtain ⟨r1, r2, r3, r4, r5⟩ := R
      refine ⟨r1, r2, by rw [r3, heap_swap_length], ?_, r5⟩
      exact r4.trans (heap_swap_elements h (heap_parent c) c (by omega) hcs hlen)
    · refine ⟨rfl, rfl, rfl, List.Perm.refl _, ?_⟩
      intro i hi hin
      by_cases hic : i = c
      · subst hic
        have : ¬ h.array.getD (heap_parent i) 0 < h.array.getD i 0 := by
          intro hlt
          exact hcond ⟨by omega, hlt⟩
        exact not_lt.mp this
      · exact H1 i hi hin hic

theorem take_succ_set (l : List Int) (n : Nat) (v : Int) (hn : n < l.length) :
    (l.set n v).take (n + 1) = l.take n ++ [v] := by
  rw [List.take_succ, List.set_take]
  have h1 : (l.take n).set n v = l.take n := by
    apply List.set_eq_of_length_le
    simp
  rw [h1]
  simp [List.getElem?_set, hn]

theorem getD_set_ne (l : List Int) (n k : Nat) (v : Int) (h : k ≠ n) :
    (l.set n v).getD k 0 = l.getD k 0 := by
  simp [List.getD_eq_getElem?_getD, List.getElem?_set, Ne.symm h]

theorem heap_insert_correct (h : heap) (v : Int) (hwf : heap_wf h)
    (hlt : h.size < h.capacity) (hord : parent_order h) :
    (heap_insert h v).size = h.size + 1 ∧
    (heap_insert h v).capacity = h.capacity ∧
    heap_wf (heap_insert h v) ∧
    (heap_elements (heap_insert h v)).Perm (v :: heap_elements h) ∧
    parent_order (heap_insert h v) := by
  obtain ⟨hlen, _⟩ := hwf
  have hne : h.size ≠ h.capacity := by omega
  unfold heap_insert
  rw [if_neg hne]
  simp only
  have R := heap_insert_loop_correct h.size
    { array := h.array.set h.size v, capacity := h.capacity, size := h.size + 1 } h.size
    le_rfl (by simp) (by simp; omega)
    (by
      intro i hi hin hne
      simp only at hin ⊢
      have hp := heap_parent_lt i hi
      rw [getD_set_ne _ _ _ _ hne, getD_set_ne _ _ _ _ (by omega)]
      exact hord i hi (by omega))
    (by
      intro i hi hin hpi _
      simp only at hin
      have hp := heap_parent_lt i hi
      omega)
  obtain ⟨r1, r2, r3, r4, r5⟩ := R
  simp only [List.length_set] at r1 r2 r3
  refine ⟨r1, r2, ⟨by rw [r3, r2]; exact hlen, by rw [r1, r2]; omega⟩, ?_, r5⟩
  refine r4.trans ?_
  simp only [heap_elements]
  rw [take_succ_set _ _ _ (by omega)]
  exact List.perm_append_singleton v _

/-! ## Heap: subtrees -/

theorem in_subtree_le {s i : Nat} (h : in_subtree s i) : s ≤ i := by
  induction h with
  | root => exact le_rfl
  | child hi _ ih => exact le_trans ih (le_of_lt (heap_parent_lt _ hi))

theorem in_subtree_trans {s m i : Nat} (h1 : in_subtree s m) (h2 : in_subtree m i) :
    in_subtree s i := by
  induction h2 with
  | root => exact h1
  | child hi _ ih => exact in_subtree.child hi ih

theorem in_subtree_left (s : Nat) : in_subtree s (heap_left s) :=
  in_subtree.child (by unfold heap_left; omega) (by rw [heap_parent_left]; exact in_subtree.root)

theorem in_subtree_right (s : Nat) : in_subtree s (heap_right s) :=
  in_subtree.child (by unfold heap_right heap_left; omega)
    (by rw [heap_parent_right]; exact in_subtree.root)

theorem in_subtree_zero (i : Nat) : in_subtree 0 i := by
  induction i using Nat.strong_induction_on with
  | _ i ih =>
    rcases Nat.eq_zero_or_pos i with h0 | hpos
    · subst h0; exact in_subtree.root
    · exact in_subtree.child hpos (ih _ (heap_parent_lt i hpos))

theorem in_subtree_parent {m i : Nat} (h : in_subtree m i) (hne : i ≠ m) :
    in_subtree m (heap_parent i) := by
  cases h with
  | root => exact absurd rfl hne
  | child _ hp => exact hp

theorem in_subtree_cases {s i : Nat} (h : in_subtree s i) (hne : i ≠ s) :
    in_subtree (heap_left s) i ∨ in_subtree (heap_right s) i := by
  induction h with
  | root => exact absurd rfl hne
  | @child i hi hp ih =>
    by_cases hps : heap_parent i = s
    · rcases eq_child_of_parent i hi with e | e
      · left; rw [e, hps]; exact in_subtree.root
      · right; rw [e, hps]; exact in_subtree.root
    · rcases ih hps with h1 | h1
      · exact Or.inl (in_subtree.child hi h1)
      · exact Or.inr (in_subtree.child hi h1)

theorem in_subtree_disjoint {s i : Nat} (h1 : in_subtree (heap_left s) i)
    (h2 : in_subtree (heap_right s) i) : False := by
  induction h1 with
  | root =>
    have := in_subtree_le h2
    unfold heap_right at this
    omega
  | @child i hi hp ih =>
    cases h2 with
    | root =>
      rw [heap_parent_right] at hp
      have := in_subtree_le hp
      unfold heap_left at this
      omega
    | child _ hp2 => exact ih hp2

/-! ## Heap: restoring the order top-down -/

theorem heapify_fuel_succ (fuel : Nat) (h : heap) (start : Nat) :
    heapify_fuel (fuel + 1) h start =
      if heapify_max h start ≠ start then
        heapify_fuel fuel (heap_swap h start (heapify_max h start)) (heapify_max h start)
      else h := rfl

theorem heapify_max_spec (h : heap) (s : Nat) :
    (heapify_max h s = s ∧
      (heap_left s < h.size → h.array.getD (heap_left s) 0 ≤ h.array.getD s 0) ∧
      (heap_right s < h.size → h.array.getD (heap_right s) 0 ≤ h.array.getD s 0)) ∨
    (heapify_max h s = heap_left s ∧ heap_left s < h.size ∧
      h.array.getD s 0 < h.array.getD (heap_left s) 0 ∧
      (heap_right s < h.size →
        h.array.getD (heap_right s) 0 ≤ h.array.getD (heap_left s) 0)) ∨
    (heapify_max h s = heap_right s ∧ heap_right s < h.size ∧
      h.array.getD s 0 < h.array.getD (heap_right s) 0 ∧
      (heap_left s < h.size →
        h.array.getD (heap_left s) 0 ≤ h.array.getD (heap_right s) 0)) := by
  unfold heapify_max
  simp only
  by_cases c1 : heap_left s < h.size ∧ h.array.getD (heap_left s) 0 > h.array.getD s 0
  · rw [if_pos c1]
    by_cases c2 : heap_right s < h.size ∧
        h.array.getD (heap_right s) 0 > h.array.getD (heap_left s) 0
    · rw [if_pos c2]
      right; right
      exact ⟨rfl, c2.1, lt_trans c1.2 c2.2, fun _ => le_of_lt c2.2⟩
    · rw [if_neg c2]
      right; left
      refine ⟨rfl, c1.1, c1.2, fun hr => ?_⟩
      exact not_lt.mp (fun hlt => c2 ⟨hr, hlt⟩)
  · rw [if_neg c1]
    by_cases c2 : heap_right s < h.size ∧ h.array.getD (heap_right s) 0 > h.array.getD s 0
    · rw [if_pos c2]
      right; right
      refine ⟨rfl, c2.1, c2.2, fun hl => ?_⟩
      have : h.array.getD (heap_left s) 0 ≤ h.array.getD s 0 :=
        not_lt.mp (fun hlt => c1 ⟨hl, hlt⟩)
      exact le_trans this (le_of_lt c2.2)
    · rw [if_neg c2]
      left
      exact ⟨rfl, fun hl => not_lt.mp (fun hlt => c1 ⟨hl, hlt⟩),
        fun hr => not_lt.mp (fun hlt => c2 ⟨hr, hlt⟩)⟩
theorem heapify_step (h h2 : heap) (s m c : Nat)
    (hlen : h.size ≤ h.array.length)
    (hm : m < h.size) (hsm : s < m) (hsc : s < c) (hmc : m ≠ c)
    (hpm : heap_parent m = s) (hpc : heap_parent c = s)
    (hcases : ∀ i, in_subtree s i → i ≠ s → in_subtree m i ∨ in_subtree c i)
    (hdisj : ∀ i, in_subtree m i → in_subtree c i → False)
    (hsubm : in_subtree s m)
    (hcm : c < h.size → h.array.getD c 0 ≤ h.array.getD m 0)
    (pre : ∀ i, i < h.size → in_subtree s i → i ≠ s → heap_parent i ≠ s →
      h.array.getD i 0 ≤ h.array.getD (heap_parent i) 0)
    (r_order : ∀ i, i < h.size → in_subtree m i → i ≠ m →
      h2.array.getD i 0 ≤ h2.array.getD (heap_parent i) 0)
    (r_frame : ∀ i, ¬ in_subtree m i →
      h2.array.getD i 0 = (heap_swap h s m).array.getD i 0)
    (r_bound : h2.array.getD m 0 ≤ h.array.getD m 0) :
    (∀ i, i < h.size → in_subtree s i → i ≠ s →
      h2.array.getD i 0 ≤ h2.array.getD (heap_parent i) 0) ∧
    (∀ i, ¬ in_subtree s i → h2.array.getD i 0 = h.array.getD i 0) ∧
    h2.array.getD s 0 = h.array.getD m 0 := by
  have G : ∀ k, (heap_swap h s m).array.getD k 0 =
      if k = m then h.array.getD s 0
      else if k = s then h.array.getD m 0 else h.array.getD k 0 :=
    fun k => heap_swap_getD h s m k (by omega) (by omega)
  have hns : ¬ in_subtree m s := fun hb => by have := in_subtree_le hb; omega
  have hroot : h2.array.getD s 0 = h.array.getD m 0 := by
    rw [r_frame s hns, G s, if_neg (by omega), if_pos rfl]
  have outside : ∀ i, ¬ in_subtree m i → i ≠ s → h2.array.getD i 0 = h.array.getD i 0 := by
    intro i hi his
    have hne : i ≠ m := fun e => hi (e ▸ in_subtree.root)
    rw [r_frame i hi, G i, if_neg hne, if_neg his]
  refine ⟨?_, ?_, hroot⟩
  · intro i hin hsub hne
    rcases hcases i hsub hne with hbm | hbc
    · by_cases him : i = m
      · subst him
        rw [hpm, hroot]
        exact r_bound
      · exact r_order i hin hbm him
    · have hnm : ¬ in_subtree m i := fun hb => hdisj i hb hbc
      have hci := in_subtree_le hbc
      by_cases hic : i = c
      · subst hic
        rw [hpc, hroot, outside i hnm (by omega)]
        exact hcm hin
      · have hpar := in_subtree_parent hbc hic
        have hnmp : ¬ in_subtree m (heap_parent i) := fun hb => hdisj _ hb hpar
        have hcp := in_subtree_le hpar
        rw [outside i hnm (by omega), outside _ hnmp (by omega)]
        exact pre i hin hsub hne (by omega)
  · intro i hi
    have hnm : ¬ in_subtree m i := fun hb => hi (in_subtree_trans hsubm hb)
    have his : i ≠ s := fun e => hi (e ▸ in_subtree.root)
    exact outside i hnm his

theorem heapify_fuel_correct (fuel : Nat) :
    ∀ (h : heap) (s : Nat), h.size ≤ s + fuel → s < h.size → h.size ≤ h.array.length →
      (∀ i, i < h.size → in_subtree s i → i ≠ s → heap_parent i ≠ s →
        h.array.getD i 0 ≤ h.array.getD (heap_parent i) 0) →
      (heapify_fuel fuel h s).size = h.size ∧
      (heapify_fuel fuel h s).capacity = h.capacity ∧
      (heapify_fuel fuel h s).array.length = h.array.length ∧
      (heap_elements (heapify_fuel fuel h s)).Perm (heap_elements h) ∧
      (∀ i, i < h.size → in_subtree s i → i ≠ s →
        (heapify_fuel fuel h s).array.getD i 0 ≤
          (heapify_fuel fuel h s).array.getD (heap_parent i) 0) ∧
      (∀ i, ¬ in_subtree s i →
        (heapify_fuel fuel h s).array.getD i 0 = h.array.getD i 0) ∧
      (∀ B, h.array.getD s 0 ≤ B →
        (heap_left s < h.size → h.array.getD (heap_left s) 0 ≤ B) →
        (heap_right s < h.size → h.array.getD (heap_right s) 0 ≤ B) →
        (heapify_fuel fuel h s).array.getD s 0 ≤ B) := by
  induction fuel with
  | zero => intro h s h1 h2; omega
  | succ fuel ih =>
    intro h s hfuel hs hlen pre
    have key : ∀ m c, heapify_max h s = m → m < h.size → s < m → s < c → m ≠ c →
        heap_parent m = s → heap_parent c = s →
        (∀ i, in_subtree s i → i ≠ s → in_subtree m i ∨ in_subtree c i) →
        (∀ i, in_subtree m i → in_subtree c i → False) →
        in_subtree s m →
        h.array.getD s 0 < h.array.getD m 0 →
        (c < h.size → h.array.getD c 0 ≤ h.array.getD m 0) →
        (m = heap_left s ∨ m = heap_right s) →
        (heapify_fuel (fuel + 1) h s).size = h.size ∧
        (heapify_fuel (fuel + 1) h s).capacity = h.capacity ∧
        (heapify_fuel (fuel + 1) h s).array.length = h.array.length ∧
        (heap_elements (heapify_fuel (fuel + 1) h s)).Perm (heap_elements h) ∧
        (∀ i, i < h.size → in_subtree s i → i ≠ s →
          (heapify_fuel (fuel + 1) h s).array.getD i 0 ≤
            (heapify_fuel (fuel + 1) h s).array.getD (heap_parent i) 0) ∧
        (∀ i, ¬ in_subtree s i →
          (heapify_fuel (fuel + 1) h s).array.getD i 0 = h.array.getD i 0) ∧
        (∀ B, h.array.getD s 0 ≤ B →
          (heap_left s < h.size → h.array.getD (heap_left s) 0 ≤ B) →
          (heap_right s < h.size → h.array.getD (heap_right s) 0 ≤ B) →
          (heapify_fuel (fuel + 1) h s).array.getD s 0 ≤ B) := by
      intro m c e hm hsm hsc hmc hpm hpc hcases hdisj hsubm hgt hcm hlr
      rw [heapify_fuel_succ, e, if_pos (by omega)]
      have G : ∀ k, (heap_swap h s m).array.getD k 0 =
          if k = m then h.array.getD s 0
          else if k = s then h.array.getD m 0 else h.array.getD k 0 :=
        fun k => heap_swap_getD h s m k (by omega) (by omega)
      have R := ih (heap_swap h s m) m (by rw [heap_swap_size]; omega)
        (by rw [heap_swap_size]; exact hm)
        (by rw [heap_swap_size, heap_swap_length]; exact hlen)
        (by
          intro i hin hsub hne hpne
          rw [heap_swap_size] at hin
          have h1 := in_subtree_le hsub
          have hpar := in_subtree_parent hsub hne
          have h2 := in_subtree_le hpar
          rw [G i, G (heap_parent i), if_neg hne, if_neg (by omega), if_neg hpne,
            if_neg (by omega)]
          exact pre i hin (in_subtree_trans hsubm hsub) (by omega) (by omega))
      obtain ⟨r1, r2, r3, r4, r5, r6, r7⟩ := R
      rw [heap_swap_size] at r1 r5 r7
      have hb : (heapify_fuel fuel (heap_swap h s m) m).array.getD m 0 ≤
          h.array.getD m 0 := by
        apply r7
        · rw [G m, if_pos rfl]; exact le_of_lt hgt
        · intro hl
          have hlt : m < heap_left m := by unfold heap_left; omega
          rw [G (heap_left m), if_neg (by omega), if_neg (by omega)]
          have := pre (heap_left m) hl (in_subtree_trans hsubm (in_subtree_left m))
            (by omega) (by rw [heap_parent_left]; omega)
          rwa [heap_parent_left] at this
        · intro hr
          have hlt : m < heap_right m := by unfold heap_right heap_left; omega
          rw [G (heap_right m), if_neg (by omega), if_neg (by omega)]
          have := pre (heap_right m) hr (in_subtree_trans hsubm (in_subtree_right m))
            (by omega) (by rw [heap_parent_right]; omega)
          rwa [heap_parent_right] at this
      have S := heapify_step h (heapify_fuel fuel (heap_swap h s m) m) s m c hlen hm hsm hsc
        hmc hpm hpc hcases hdisj hsubm hcm pre r5 r6 hb
      obtain ⟨s1, s2, s3⟩ := S
      refine ⟨r1, r2, by rw [r3, heap_swap_length], ?_, s1, s2, ?_⟩
      · exact r4.trans (heap_swap_elements h s m hs hm hlen)
      · intro B _ hl hr
        rw [s3]
        rcases hlr with e1 | e1
        · rw [e1]; exact hl (e1 ▸ hm)
        · rw [e1]; exact hr (e1 ▸ hm)
    rcases heapify_max_spec h s with ⟨e, hl, hr⟩ | ⟨e, hm, hgt, hcm⟩ | ⟨e, hm, hgt, hcm⟩
    · rw [heapify_fuel_succ, e, if_neg (by simp)]
      refine ⟨rfl, rfl, rfl, List.Perm.refl _, ?_, fun _ _ => rfl, fun B hB _ _ => hB⟩
      intro i hin hsub hne
      have hle := in_subtree_le hsub
      by_cases hp : heap_parent i = s
      · rcases eq_child_of_parent i (by omega) with e1 | e1
        · rw [hp] at e1 ⊢
          rw [e1]; exact hl (e1 ▸ hin)
        · rw [hp] at e1 ⊢
          rw [e1]; exact hr (e1 ▸ hin)
      · exact pre i hin hsub hne hp
    · exact key (heap_left s) (heap_right s) e hm (by unfold heap_left; omega)
        (by unfold heap_right heap_left; omega) (by unfold heap_right; omega)
        (heap_parent_left s) (heap_parent_right s)
        (fun i hi hne => in_subtree_cases hi hne)
        (fun i h1 h2 => in_subtree_disjoint h1 h2)
        (in_subtree_left s) hgt hcm (Or.inl rfl)
    · exact key (heap_right s) (heap_left s) e hm (by unfold heap_right heap_left; omega)
        (by unfold heap_left; omega) (by unfold heap_right; omega)
        (heap_parent_right s) (heap_parent_left s)
        (fun i hi hne => (in_subtree_cases hi hne).symm)
        (fun i h1 h2 => in_subtree_disjoint h2 h1)
        (in_subtree_right s) hgt hcm (Or.inr rfl)

/-! ## Heap: removing the maximum -/

theorem take_perm_of_move_last (l : List Int) (n : Nat) (hn : 0 < n) (hlen : n ≤ l.length) :
    (l.take n).Perm (l.getD 0 0 :: ((l.set 0 (l.getD (n - 1) 0)).take (n - 1))) := by
  cases l with
  | nil => simp at hlen; omega
  | cons x t =>
    obtain ⟨k, rfl⟩ : ∃ k, n = k + 1 := ⟨n - 1, by omega⟩
    have hk : k ≤ t.length := by simpa using hlen
    cases k with
    | zero => simp
    | succ k =>
      have hk1 : k < t.length := by omega
      simp only [Nat.add_sub_cancel, List.getD_cons_zero, List.getD_cons_succ, List.set_cons_zero,
        List.take_succ_cons]
      refine List.Perm.cons x ?_
      rw [List.take_succ]
      have : t[k]?.toList = [t.getD k 0] := by
        simp [List.getD_eq_getElem?_getD, List.getElem?_eq_getElem hk1]
      rw [this]
      exact List.perm_append_singleton _ _

theorem heap_deletemax_correct (h : heap) (hwf : heap_wf h) (hpos : 0 < h.size)
    (hord : parent_order h) :
    ∃ h2, heap_deletemax h = some (h.array.getD 0 0, h2) ∧
      h.array.getD 0 0 ∈ heap_elements h ∧
      (∀ x ∈ heap_elements h, x ≤ h.array.getD 0 0) ∧
      h2.size = h.size - 1 ∧ h2.capacity = h.capacity ∧ heap_wf h2 ∧
      (heap_elements h).Perm (h.array.getD 0 0 :: heap_elements h2) ∧
      parent_order h2 := by
  obtain ⟨hlen, hcap⟩ := hwf
  have hne : h.size ≠ 0 := by omega
  have hmem : ∀ x ∈ heap_elements h, ∃ i, i < h.size ∧ x = h.array.getD i 0 := by
    intro x hx
    obtain ⟨i, hi, rfl⟩ := List.getElem_of_mem hx
    have hi' : i < h.size := by
      simp only [heap_elements, List.length_take] at hi; omega
    refine ⟨i, hi', ?_⟩
    simp only [heap_elements, List.getElem_take]
    rw [List.getD_eq_getElem _ _ (by omega)]
  have hroot : h.array.getD 0 0 ∈ heap_elements h := by
    have h0 : 0 < (heap_elements h).length := by
      simp only [heap_elements, List.length_take]; omega
    have := List.getElem_mem h0
    simp only [heap_elements, List.getElem_take] at this
    rw [List.getD_eq_getElem _ _ (by omega)]
    exact this
  have hmax : ∀ x ∈ heap_elements h, x ≤ h.array.getD 0 0 := by
    intro x hx
    obtain ⟨i, hi, rfl⟩ := hmem x hx
    exact root_is_max h hord i hi
  refine ⟨heapify
    (heap.mk (h.array.set 0 (h.array.getD (h.size - 1) 0)) h.capacity (h.size - 1)) 0,
    ?_, hroot, hmax, ?_⟩
  · unfold heap_deletemax
    rw [if_neg hne]
  by_cases h1 : h.size = 1
  · have e : heapify
        (heap.mk (h.array.set 0 (h.array.getD (h.size - 1) 0)) h.capacity (h.size - 1)) 0 =
        (heap.mk (h.array.set 0 (h.array.getD (h.size - 1) 0)) h.capacity (h.size - 1)) := by
      unfold heapify
      simp [h1, heapify_fuel]
    rw [e]
    refine ⟨rfl, rfl, ⟨by simpa using hlen, by simp only; omega⟩, ?_, ?_⟩
    · have := take_perm_of_move_last h.array h.size hpos (by omega)
      simpa [heap_elements] using this
    · intro i hi hin
      simp only at hin
      omega
  · have R := heapify_fuel_correct (h.size - 1 - 0)
      (heap.mk (h.array.set 0 (h.array.getD (h.size - 1) 0)) h.capacity (h.size - 1)) 0
      (by simp) (by simp only; omega) (by simp only [List.length_set]; omega)
      (by
        intro i hin _ hne0 hpne
        simp only at hin ⊢
        rw [getD_set_ne _ _ _ _ hne0, getD_set_ne _ _ _ _ hpne]
        exact hord i (by omega) (by omega))
    obtain ⟨r1, r2, r3, r4, r5, _, _⟩ := R
    simp only [List.length_set] at r1 r2 r3 r5
    unfold heapify
    simp only
    refine ⟨r1, r2, ⟨by rw [r3, r2]; exact hlen, by rw [r1, r2]; omega⟩, ?_, ?_⟩
    · refine (take_perm_of_move_last h.array h.size hpos (by omega)).trans ?_
      exact List.Perm.cons _ r4.symm
    · intro i hi hin
      rw [r1] at hin
      exact r5 i hin (in_subtree_zero i) (by omega)

/-! ## The reference procedure -/

theorem max?_eq_some_iff_int (l : List Int) (a : Int) :
    l.max? = some a ↔ a ∈ l ∧ ∀ b ∈ l, b ≤ a := by
  haveI : Std.Antisymm (fun (x y : Int) => x ≤ y) := ⟨fun h1 h2 => le_antisymm h1 h2⟩
  exact List.max?_eq_some_iff (fun x => le_refl x)
    (fun x y => by rcases le_total x y with h | h <;> simp [h])
    (fun x y z => max_le_iff)

theorem max?_perm (l1 l2 : List Int) (p : l1.Perm l2) : l1.max? = l2.max? := by
  cases h : l1.max? with
  | none =>
    have : l1 = [] := by simpa using h
    subst this
    have : l2 = [] := by simpa using p.symm
    subst this
    rfl
  | some a =>
    rw [max?_eq_some_iff_int] at h
    symm
    rw [max?_eq_some_iff_int]
    exact ⟨p.mem_iff.mp h.1, fun b hb => h.2 b (p.mem_iff.mpr hb)⟩

theorem kk_reference_fuel_singleton (fuel : Nat) (x : Int) :
    kk_reference_fuel fuel [x] = some x := by
  cases fuel <;> simp [kk_reference_fuel]

theorem kk_reference_fuel_nil (fuel : Nat) : kk_reference_fuel fuel [] = none := by
  cases fuel <;> simp [kk_reference_fuel]

theorem kk_reference_fuel_succ (fuel : Nat) (l : List Int) :
    kk_reference_fuel (fuel + 1) l =
      if 2 ≤ l.length then
        match l.max? with
        | none => none
        | some a =>
          match (l.erase a).max? with
          | none => none
          | some b => kk_reference_fuel fuel (|a - b| :: (l.erase a).erase b)
      else match l with
        | [x] => some x
        | _ => none := rfl

theorem kk_reference_fuel_step (fuel : Nat) (l : List Int) (a b : Int) (hl : 2 ≤ l.length)
    (ha : l.max? = some a) (hb : (l.erase a).max? = some b) :
    kk_reference_fuel (fuel + 1) l =
      kk_reference_fuel fuel (|a - b| :: (l.erase a).erase b) := by
  rw [kk_reference_fuel_succ, if_pos hl]
  simp only [ha, hb]

theorem kk_reference_fuel_zero (l : List Int) (hl : 2 ≤ l.length) :
    kk_reference_fuel 0 l = none := by
  match l, hl with
  | _ :: _ :: _, _ => simp [kk_reference_fuel]

theorem max?_of_ne_nil (l : List Int) (hl : 0 < l.length) : ∃ a, l.max? = some a := by
  cases l with
  | nil => simp at hl
  | cons x t =>
    have := List.isSome_max?_of_mem (List.mem_cons_self x t)
    exact Option.isSome_iff_exists.mp this

theorem kk_reference_fuel_perm (fuel : Nat) :
    ∀ l1 l2 : List Int, l1.Perm l2 → kk_reference_fuel fuel l1 = kk_reference_fuel fuel l2 := by
  induction fuel with
  | zero =>
    intro l1 l2 p
    by_cases hl : 2 ≤ l1.length
    · rw [kk_reference_fuel_zero l1 hl, kk_reference_fuel_zero l2 (p.length_eq ▸ hl)]
    · match l1, hl with
      | [], _ =>
        have : l2 = [] := by simpa using p.symm
        rw [this]
      | [x], _ =>
        have : l2 = [x] := List.perm_singleton.mp p.symm
        rw [this]
      | _ :: _ :: _, hl => simp at hl
  | succ fuel ih =>
    intro l1 l2 p
    by_cases hl : 2 ≤ l1.length
    · have hl2 : 2 ≤ l2.length := p.length_eq ▸ hl
      obtain ⟨a, ha⟩ := max?_of_ne_nil l1 (by omega)
      have ha2 : l2.max? = some a := (max?_perm l1 l2 p) ▸ ha
      have hae : (l1.erase a).length = l1.length - 1 :=
        List.length_erase_of_mem ((max?_eq_some_iff_int l1 a).mp ha).1
      obtain ⟨b, hb⟩ := max?_of_ne_nil (l1.erase a) (by omega)
      have hb2 : (l2.erase a).max? = some b := (max?_perm _ _ (p.erase a)) ▸ hb
      rw [kk_reference_fuel_step fuel l1 a b hl ha hb,
        kk_reference_fuel_step fuel l2 a b hl2 ha2 hb2]
      exact ih _ _ (List.Perm.cons _ ((p.erase a).erase b))
    · match l1, hl with
      | [], _ =>
        have : l2 = [] := by simpa using p.symm
        rw [this]
      | [x], _ =>
        have : l2 = [x] := List.perm_singleton.mp p.symm
        rw [this]
      | _ :: _ :: _, hl => simp at hl

theorem kk_reference_fuel_returns (fuel : Nat) :
    ∀ l : List Int, 0 < l.length → l.length ≤ fuel + 1 →
      ∃ r, kk_reference_fuel fuel l = some r := by
  induction fuel with
  | zero =>
    intro l h1 h2
    match l, h1, h2 with
    | [x], _, _ => exact ⟨x, kk_reference_fuel_singleton 0 x⟩
  | succ fuel ih =>
    intro l h1 h2
    by_cases hl : 2 ≤ l.length
    · obtain ⟨a, ha⟩ := max?_of_ne_nil l (by omega)
      have hae : (l.erase a).length = l.length - 1 :=
        List.length_erase_of_mem ((max?_eq_some_iff_int l a).mp ha).1
      obtain ⟨b, hb⟩ := max?_of_ne_nil (l.erase a) (by omega)
      have hbe : ((l.erase a).erase b).length = (l.erase a).length - 1 :=
        List.length_erase_of_mem ((max?_eq_some_iff_int _ b).mp hb).1
      rw [kk_reference_fuel_step fuel l a b hl ha hb]
      exact ih _ (by simp) (by simp only [List.length_cons]; omega)
    · match l, h1, hl with
      | [x], _, _ => exact ⟨x, kk_reference_fuel_singleton _ x⟩
      | _ :: _ :: _, _, hl => simp at hl

theorem kk_reference_fuel_small (fuel : Nat) (l : List Int) (r : Int) (hl : ¬ 2 ≤ l.length)
    (h : kk_reference_fuel fuel l = some r) : l = [r] := by
  match l, hl with
  | [], _ => rw [kk_reference_fuel_nil] at h; exact absurd h (by simp)
  | [x], _ =>
    rw [kk_reference_fuel_singleton] at h
    rw [Option.some.inj h]
  | _ :: _ :: _, hl => simp at hl

/-! ## The reference procedure with another combining function -/

theorem kk_reference_with_singleton (f : Int → Int → Int) (fuel : Nat) (x : Int) :
    kk_reference_with f fuel [x] = some x := by
  cases fuel <;> simp [kk_reference_with]

theorem kk_reference_with_nil (f : Int → Int → Int) (fuel : Nat) :
    kk_reference_with f fuel [] = none := by
  cases fuel <;> simp [kk_reference_with]

theorem kk_reference_with_succ (f : Int → Int → Int) (fuel : Nat) (l : List Int) :
    kk_reference_with f (fuel + 1) l =
      if 2 ≤ l.length then
        match l.max? with
        | none => none
        | some a =>
          match (l.erase a).max? with
          | none => none
          | some b => kk_reference_with f fuel (f a b :: (l.erase a).erase b)
      else match l with
        | [x] => some x
        | _ => none := rfl

theorem kk_reference_with_step (f : Int → Int → Int) (fuel : Nat) (l : List Int) (a b : Int)
    (hl : 2 ≤ l.length)
    (ha : l.max? = some a) (hb : (l.erase a).max? = some b) :
    kk_reference_with f (fuel + 1) l =
      kk_reference_with f fuel (f a b :: (l.erase a).erase b) := by
  rw [kk_reference_with_succ f, if_pos hl]
  simp only [ha, hb]

theorem kk_reference_with_zero (f : Int → Int → Int) (l : List Int) (hl : 2 ≤ l.length) :
    kk_reference_with f 0 l = none := by
  match l, hl with
  | _ :: _ :: _, _ => simp [kk_reference_with]

theorem kk_reference_with_perm (f : Int → Int → Int) (fuel : Nat) :
    ∀ l1 l2 : List Int, l1.Perm l2 →
      kk_reference_with f fuel l1 = kk_reference_with f fuel l2 := by
  induction fuel with
  | zero =>
    intro l1 l2 p
    by_cases hl : 2 ≤ l1.length
    · rw [kk_reference_with_zero f l1 hl, kk_reference_with_zero f l2 (p.length_eq ▸ hl)]
    · match l1, hl with
      | [], _ =>
        have : l2 = [] := by simpa using p.symm
        rw [this]
      | [x], _ =>
        have : l2 = [x] := List.perm_singleton.mp p.symm
        rw [this]
      | _ :: _ :: _, hl => simp at hl
  | succ fuel ih =>
    intro l1 l2 p
    by_cases hl : 2 ≤ l1.length
    · have hl2 : 2 ≤ l2.length := p.length_eq ▸ hl
      obtain ⟨a, ha⟩ := max?_of_ne_nil l1 (by omega)
      have ha2 : l2.max? = some a := (max?_perm l1 l2 p) ▸ ha
      have hae : (l1.erase a).length = l1.length - 1 :=
        List.length_erase_of_mem ((max?_eq_some_iff_int l1 a).mp ha).1
      obtain ⟨b, hb⟩ := max?_of_ne_nil (l1.erase a) (by omega)
      have hb2 : (l2.erase a).max? = some b := (max?_perm _ _ (p.erase a)) ▸ hb
      rw [kk_reference_with_step f fuel l1 a b hl ha hb,
        kk_reference_with_step f fuel l2 a b hl2 ha2 hb2]
      exact ih _ _ (List.Perm.cons _ ((p.erase a).erase b))
    · match l1, hl with
      | [], _ =>
        have : l2 = [] := by simpa using p.symm
        rw [this]
      | [x], _ =>
        have : l2 = [x] := List.perm_singleton.mp p.symm
        rw [this]
      | _ :: _ :: _, hl => simp at hl

theorem kk_reference_with_returns (f : Int → Int → Int) (fuel : Nat) :
    ∀ l : List Int, 0 < l.length → l.length ≤ fuel + 1 →
      ∃ r, kk_reference_with f fuel l = some r := by
  induction fuel with
  | zero =>
    intro l h1 h2
    match l, h1, h2 with
    | [x], _, _ => exact ⟨x, kk_reference_with_singleton f 0 x⟩
  | succ fuel ih =>
    intro l h1 h2
    by_cases hl : 2 ≤ l.length
    · obtain ⟨a, ha⟩ := max?_of_ne_nil l (by omega)
      have hae : (l.erase a).length = l.length - 1 :=
        List.length_erase_of_mem ((max?_eq_some_iff_int l a).mp ha).1
      obtain ⟨b, hb⟩ := max?_of_ne_nil (l.erase a) (by omega)
      have hbe : ((l.erase a).erase b).length = (l.erase a).length - 1 :=
        List.length_erase_of_mem ((max?_eq_some_iff_int _ b).mp hb).1
      rw [kk_reference_with_step f fuel l a b hl ha hb]
      exact ih _ (by simp) (by simp only [List.length_cons]; omega)
    · match l, h1, hl with
      | [x], _, _ => exact ⟨x, kk_reference_with_singleton f _ x⟩
      | _ :: _ :: _, _, hl => simp at hl

/-! ## Karmarkar-Karp refines the reference procedure -/

theorem karmarkar_karp_eq (N : Nat) (A : List Int) :
    karmarkar_karp N A =
      karmarkar_karp_from (karmarkar_karp_build N A N).size (karmarkar_karp_build N A N) := rfl

theorem heap_elements_length (h : heap) (hwf : heap_wf h) :
    (heap_elements h).length = h.size := by
  obtain ⟨h1, h2⟩ := hwf
  simp only [heap_elements, List.length_take]
  omega

theorem karmarkar_karp_from_small (fuel : Nat) (h : heap) (hs : ¬ 2 ≤ h.size) :
    karmarkar_karp_from fuel h =
      match heap_deletemax h with
      | none => none
      | some (result, _) => some result := by
  unfold karmarkar_karp_from
  cases fuel <;> simp [karmarkar_karp_loop, hs]

theorem karmarkar_karp_from_zero (h : heap) (hs : 2 ≤ h.size) :
    karmarkar_karp_from 0 h = none := by
  simp [karmarkar_karp_from, karmarkar_karp_loop, hs]

theorem karmarkar_karp_from_step (fuel : Nat) (h h1 h2 : heap) (a b : Int) (hs : 2 ≤ h.size)
    (e1 : heap_deletemax h = some (a, h1)) (e2 : heap_deletemax h1 = some (b, h2)) :
    karmarkar_karp_from (fuel + 1) h =
      karmarkar_karp_from fuel (heap_insert h2 (labs (long_sub a b))) := by
  simp [karmarkar_karp_from, karmarkar_karp_loop, hs, e1, e2]

theorem karmarkar_karp_from_refines (fuel : Nat) :
    ∀ h : heap, heap_wf h → parent_order h →
      karmarkar_karp_from fuel h =
        kk_reference_with (fun a b => labs (long_sub a b)) fuel (heap_elements h) := by
  induction fuel with
  | zero =>
    intro h hwf hord
    by_cases hs : 2 ≤ h.size
    · rw [karmarkar_karp_from_zero h hs, kk_reference_with_zero]
      rw [heap_elements_length h hwf]; exact hs
    · rw [karmarkar_karp_from_small 0 h hs]
      by_cases h0 : h.size = 0
      · have : heap_elements h = [] := by simp [heap_elements, h0]
        rw [this, kk_reference_with_nil]
        simp [heap_deletemax, h0]
      · obtain ⟨h2, e, _, _, hsz, _, _, hp, _⟩ :=
          heap_deletemax_correct h hwf (by omega) hord
        have he2 : heap_elements h2 = [] := by
          simp [heap_elements, hsz, show h.size - 1 = 0 by omega]
        rw [he2] at hp
        rw [e, kk_reference_with_perm _ 0 _ _ hp, kk_reference_with_singleton]
  | succ fuel ih =>
    intro h hwf hord
    by_cases hs : 2 ≤ h.size
    · obtain ⟨h1, e1, ha, hamax, hsz1, hcap1, hwf1, hp1, hord1⟩ :=
        heap_deletemax_correct h hwf (by omega) hord
      obtain ⟨h2, e2, hb, hbmax, hsz2, hcap2, hwf2, hp2, hord2⟩ :=
        heap_deletemax_correct h1 hwf1 (by omega) hord1
      have hlt : h2.size < h2.capacity := by
        have := hwf.2
        omega
      obtain ⟨_, _, hwf3, hp3, hord3⟩ :=
        heap_insert_correct h2 (labs (long_sub (h.array.getD 0 0) (h1.array.getD 0 0))) hwf2 hlt
          hord2
      rw [karmarkar_karp_from_step fuel h h1 h2 _ _ hs e1 e2, ih _ hwf3 hord3]
      have hq1 : ((heap_elements h).erase (h.array.getD 0 0)).Perm (heap_elements h1) := by
        have := hp1.erase (h.array.getD 0 0)
        rwa [List.erase_cons_head] at this
      have hq2 : (((heap_elements h).erase (h.array.getD 0 0)).erase
          (h1.array.getD 0 0)).Perm (heap_elements h2) := by
        have := (hq1.trans hp2).erase (h1.array.getD 0 0)
        rwa [List.erase_cons_head] at this
      have m1 : (heap_elements h).max? = some (h.array.getD 0 0) :=
        (max?_eq_some_iff_int _ _).mpr ⟨ha, hamax⟩
      have m2 : ((heap_elements h).erase (h.array.getD 0 0)).max? =
          some (h1.array.getD 0 0) := by
        rw [max?_perm _ _ hq1]
        exact (max?_eq_some_iff_int _ _).mpr ⟨hb, hbmax⟩
      rw [kk_reference_with_step _ fuel (heap_elements h) _ _
        (by rw [heap_elements_length h hwf]; exact hs) m1 m2]
      exact kk_reference_with_perm _ fuel _ _ (hp3.trans (List.Perm.cons _ hq2.symm))
    · rw [karmarkar_karp_from_small (fuel + 1) h hs]
      by_cases h0 : h.size = 0
      · have : heap_elements h = [] := by simp [heap_elements, h0]
        rw [this, kk_reference_with_nil]
        simp [heap_deletemax, h0]
      · obtain ⟨h2, e, _, _, hsz, _, _, hp, _⟩ :=
          heap_deletemax_correct h hwf (by omega) hord
        have he2 : heap_elements h2 = [] := by
          simp [heap_elements, hsz, show h.size - 1 = 0 by omega]
        rw [he2] at hp
        rw [e, kk_reference_with_perm _ _ _ _ hp, kk_reference_with_singleton]

theorem heap_new_wf (N : Nat) : heap_wf (heap_new N) := by
  simp [heap_wf, heap_new]

theorem karmarkar_karp_build_succ (N : Nat) (A : List Int) (k : Nat) :
    karmarkar_karp_build N A (k + 1) =
      heap_insert (karmarkar_karp_build N A k) (A.getD k 0) := by
  simp [karmarkar_karp_build, List.range_succ, List.foldl_append]

theorem karmarkar_karp_build_correct (N : Nat) (A : List Int) (hA : A.length = N) :
    ∀ k, k ≤ N →
      (karmarkar_karp_build N A k).size = k ∧
      (karmarkar_karp_build N A k).capacity = N ∧
      heap_wf (karmarkar_karp_build N A k) ∧
      parent_order (karmarkar_karp_build N A k) ∧
      (heap_elements (karmarkar_karp_build N A k)).Perm (A.take k) := by
  intro k
  induction k with
  | zero =>
    intro _
    refine ⟨rfl, rfl, heap_new_wf N, ?_, ?_⟩
    · intro i _ hin
      simp [karmarkar_karp_build, heap_new] at hin
    · simp [karmarkar_karp_build, heap_new, heap_elements]
  | succ k ih =>
    intro hk
    obtain ⟨h1, h2, h3, h4, h5⟩ := ih (by omega)
    rw [karmarkar_karp_build_succ]
    obtain ⟨r1, r2, r3, r4, r5⟩ :=
      heap_insert_correct (karmarkar_karp_build N A k) (A.getD k 0) h3 (by omega) h4
    refine ⟨by rw [r1, h1], by rw [r2, h2], r3, r5, ?_⟩
    refine r4.trans ?_
    rw [List.take_succ]
    have : A[k]?.toList = [A.getD k 0] := by
      simp [List.getD_eq_getElem?_getD, List.getElem?_eq_getElem (show k < A.length by omega)]
    rw [this]
    exact ((List.perm_append_singleton _ _).trans (List.Perm.cons _ h5.symm)).symm

theorem karmarkar_karp_eq_with (N : Nat) (A : List Int) (hA : A.length = N) :
    karmarkar_karp N A =
      kk_reference_with (fun a b => labs (long_sub a b)) A.length A := by
  obtain ⟨h1, _, h3, h4, h5⟩ := karmarkar_karp_build_correct N A hA N le_rfl
  rw [karmarkar_karp_eq, karmarkar_karp_from_refines _ _ h3 h4, h1]
  have h6 : (heap_elements (karmarkar_karp_build N A N)).Perm A := by
    have : A.take N = A := by rw [← hA]; exact List.take_length A
    rwa [this] at h5
  rw [kk_reference_with_perm _ N _ _ h6, hA]

/-! ## Inputs on which the 64-bit arithmetic is exact -/

theorem long_wrap_of_range (x : Int) (h1 : LONG_MIN ≤ x) (h2 : x ≤ LONG_MAX) :
    long_wrap x = x := by
  unfold long_wrap
  unfold LONG_MIN at h1
  unfold LONG_MAX at h2
  omega

theorem labs_long_sub_exact (a b : Int) (h : |a - b| ≤ LONG_MAX) :
    labs (long_sub a b) = |a - b| := by
  have h0 : (0 : Int) ≤ |a - b| := abs_nonneg _
  have h1 : LONG_MIN ≤ a - b := by
    have := neg_abs_le (a - b)
    unfold LONG_MIN
    unfold LONG_MAX at h
    omega
  have h2 : a - b ≤ LONG_MAX := le_trans (le_abs_self _) h
  unfold labs long_sub
  rw [long_wrap_of_range _ h1 h2]
  exact long_wrap_of_range _ (by unfold LONG_MIN; omega) h

theorem sum_abs_nonneg (l : List Int) : 0 ≤ (l.map (fun a => |a|)).sum := by
  apply List.sum_nonneg
  intro x hx
  obtain ⟨y, _, rfl⟩ := List.mem_map.mp hx
  exact abs_nonneg y

theorem kk_in_range_step (l : List Int) (a b : Int) (hP : kk_in_range l)
    (ha : l.max? = some a) (hb : (l.erase a).max? = some b) :
    |a - b| ≤ LONG_MAX ∧ kk_in_range (|a - b| :: (l.erase a).erase b) := by
  obtain ⟨hamem, hamax⟩ := (max?_eq_some_iff_int l a).mp ha
  obtain ⟨hbmem, _⟩ := (max?_eq_some_iff_int _ b).mp hb
  have hbl : b ∈ l := List.mem_of_mem_erase hbmem
  rcases hP with h1 | h2
  · have hba : b ≤ a := hamax b hbl
    have hb0 := (h1 b hbl).1
    have ha1 := (h1 a hamem).2
    have e : |a - b| = a - b := abs_of_nonneg (by omega)
    refine ⟨by rw [e]; omega, Or.inl ?_⟩
    intro x hx
    rcases List.mem_cons.mp hx with rfl | hx
    · rw [e]; omega
    · exact h1 x (List.mem_of_mem_erase (List.mem_of_mem_erase hx))
  · have p : l.Perm (a :: b :: (l.erase a).erase b) :=
      (List.perm_cons_erase hamem).trans (List.Perm.cons a (List.perm_cons_erase hbmem))
    have hs : (l.map (fun a => |a|)).sum =
        |a| + (|b| + (((l.erase a).erase b).map (fun a => |a|)).sum) := by
      rw [(p.map (fun a => |a|)).sum_eq]
      simp
    have hr := sum_abs_nonneg ((l.erase a).erase b)
    have ht : |a - b| ≤ |a| + |b| := abs_sub a b
    refine ⟨by omega, Or.inr ?_⟩
    simp only [List.map_cons, List.sum_cons, abs_abs]
    omega

theorem kk_reference_with_exact (f : Int → Int → Int) (P : List Int → Prop)
    (hstep : ∀ l a b, P l → l.max? = some a → (l.erase a).max? = some b →
      f a b = |a - b| ∧ P (|a - b| :: (l.erase a).erase b))
    (fuel : Nat) :
    ∀ l, P l → kk_reference_with f fuel l = kk_reference_fuel fuel l := by
  induction fuel with
  | zero =>
    intro l _
    match l with
    | [] => rfl
    | [_] => rfl
    | _ :: _ :: _ => rfl
  | succ fuel ih =>
    intro l hP
    by_cases hl : 2 ≤ l.length
    · obtain ⟨a, ha⟩ := max?_of_ne_nil l (by omega)
      have hae : (l.erase a).length = l.length - 1 :=
        List.length_erase_of_mem ((max?_eq_some_iff_int l a).mp ha).1
      obtain ⟨b, hb⟩ := max?_of_ne_nil (l.erase a) (by omega)
      obtain ⟨e, hP2⟩ := hstep l a b hP ha hb
      rw [kk_reference_with_step f fuel l a b hl ha hb,
        kk_reference_fuel_step fuel l a b hl ha hb, e]
      exact ih _ hP2
    · match l, hl with
      | [], _ => rw [kk_reference_with_nil, kk_reference_fuel_nil]
      | [x], _ => rw [kk_reference_with_singleton, kk_reference_fuel_singleton]
      | _ :: _ :: _, hl => simp at hl

theorem kk_reference_fuel_in_range (fuel : Nat) :
    ∀ (l : List Int) (r : Int), kk_in_range l → kk_reference_fuel fuel l = some r →
      |r| ≤ LONG_MAX := by
  have single : ∀ r : Int, kk_in_range [r] → |r| ≤ LONG_MAX := by
    intro r h
    rcases h with h1 | h2
    · have := h1 r (List.mem_singleton.mpr rfl)
      rw [abs_of_nonneg this.1]; exact this.2
    · simpa using h2
  induction fuel with
  | zero =>
    intro l r hP h
    by_cases hl : 2 ≤ l.length
    · rw [kk_reference_fuel_zero l hl] at h; exact absurd h (by simp)
    · rw [kk_reference_fuel_small 0 l r hl h] at hP; exact single r hP
  | succ fuel ih =>
    intro l r hP h
    by_cases hl : 2 ≤ l.length
    · obtain ⟨a, ha⟩ := max?_of_ne_nil l (by omega)
      have hae : (l.erase a).length = l.length - 1 :=
        List.length_erase_of_mem ((max?_eq_some_iff_int l a).mp ha).1
      obtain ⟨b, hb⟩ := max?_of_ne_nil (l.erase a) (by omega)
      rw [kk_reference_fuel_step fuel l a b hl ha hb] at h
      exact ih _ r (kk_in_range_step l a b hP ha hb).2 h
    · rw [kk_reference_fuel_small _ l r hl h] at hP; exact single r hP

theorem karmarkar_karp_refines (N : Nat) (A : List Int) (hA : A.length = N)
    (hrange : kk_in_range A) :
    karmarkar_karp N A = kk_reference A := by
  rw [karmarkar_karp_eq_with N A hA]
  unfold kk_reference
  apply kk_reference_with_exact _ kk_in_range _ _ A hrange
  intro l a b hP ha hb
  obtain ⟨h1, h2⟩ := kk_in_range_step l a b hP ha hb
  exact ⟨labs_long_sub_exact a b h1, h2⟩

/-- C3, as stated, fails on 64-bit values: on `[LONG_MAX, -1]` the difference
`LONG_MAX - (-1)` wraps around, `karmarkar_karp` returns `LONG_MIN`, and the
reference procedure gives `2^63`. -/
theorem karmarkar_karp_differs_from_reference :
    ([LONG_MAX, -1] : List Int).length = 2 ∧
      karmarkar_karp 2 [LONG_MAX, -1] = some LONG_MIN ∧
      kk_reference [LONG_MAX, -1] = some 9223372036854775808 ∧
      karmarkar_karp 2 [LONG_MAX, -1] ≠ kk_reference [LONG_MAX, -1] := by
  refine ⟨by decide, by decide, by decide, by decide⟩

/-- C3. For an input `A` of length `N ≥ 1` whose entries are non-negative
values of type `long`, or whose absolute values sum to at most `LONG_MAX`,
`karmarkar_karp` returns a value, and it is the value of the reference
procedure (repeatedly replace the two largest values by the absolute value of
their difference, return the last value); the reference procedure depends on
the multiset of the values only. -/
theorem karmarkar_karp_is_reference (N : Nat) (A : List Int) (hA : A.length = N)
    (hN : 1 ≤ N)
    (hrange : (∀ a ∈ A, 0 ≤ a ∧ a ≤ LONG_MAX) ∨
      (A.map (fun a => |a|)).sum ≤ LONG_MAX) :
    (∃ r, karmarkar_karp N A = some r) ∧
      karmarkar_karp N A = kk_reference A ∧
      (∀ A2 : List Int, A2.Perm A → kk_reference A2 = kk_reference A) := by
  refine ⟨?_, karmarkar_karp_refines N A hA hrange, ?_⟩
  · rw [karmarkar_karp_refines N A hA hrange]
    exact kk_reference_fuel_returns _ A (by omega) (by omega)
  · intro A2 p
    unfold kk_reference
    rw [p.length_eq]
    exact kk_reference_fuel_perm _ _ _ p

theorem karmarkar_karp_is_reference_witness :
    ((∃ r, karmarkar_karp 5 [10, -3, 7, 8, -20] = some r) ∧
      karmarkar_karp 5 [10, -3, 7, 8, -20] = kk_reference [10, -3, 7, 8, -20] ∧
      (∀ A2 : List Int, A2.Perm [10, -3, 7, 8, -20] →
        kk_reference A2 = kk_reference [10, -3, 7, 8, -20])) ∧
    ((∃ r, karmarkar_karp 3 [LONG_MAX, LONG_MAX, 5] = some r) ∧
      karmarkar_karp 3 [LONG_MAX, LONG_MAX, 5] = kk_reference [LONG_MAX, LONG_MAX, 5] ∧
      (∀ A2 : List Int, A2.Perm [LONG_MAX, LONG_MAX, 5] →
        kk_reference A2 = kk_reference [LONG_MAX, LONG_MAX, 5])) :=
  ⟨karmarkar_karp_is_reference 5 [10, -3, 7, 8, -20] (by decide) (by decide)
      (Or.inr (by decide)),
    karmarkar_karp_is_reference 3 [LONG_MAX, LONG_MAX, 5] (by decide) (by decide)
      (Or.inl (by decide))⟩

/-! ## The Karmarkar-Karp value is a residue -/

theorem reach_perm {l1 l2 : List Int} (p : l1.Perm l2) :
    ∀ r, (∃ S, S.length = l1.length ∧ is_signs S ∧ signed_sum S l1 = r) →
      ∃ S, S.length = l2.length ∧ is_signs S ∧ signed_sum S l2 = r := by
  induction p with
  | nil => intro r h; exact h
  | @cons x l1 l2 _ ih =>
    rintro r ⟨S, hlen, hs, hsum⟩
    cases S with
    | nil => simp at hlen
    | cons s S =>
      obtain ⟨S2, h1, h2, h3⟩ := ih (signed_sum S l1)
        ⟨S, by simpa using hlen, fun y hy => hs y (List.mem_cons_of_mem _ hy), rfl⟩
      refine ⟨s :: S2, by simp [h1], ?_, ?_⟩
      · intro y hy
        rcases List.mem_cons.mp hy with e | e
        · exact e ▸ hs s (List.mem_cons_self _ _)
        · exact h2 y e
      · simp only [signed_sum, List.zipWith_cons_cons, List.sum_cons] at hsum h3 ⊢
        rw [h3]; exact hsum
  | swap x y l =>
    rintro r ⟨S, hlen, hs, hsum⟩
    match S, hlen, hs, hsum with
    | s1 :: s2 :: S, hlen, hs, hsum =>
      refine ⟨s2 :: s1 :: S, by simpa using hlen, ?_, ?_⟩
      · intro z hz
        apply hs
        simp only [List.mem_cons] at hz ⊢
        tauto
      · simp only [signed_sum, List.zipWith_cons_cons, List.sum_cons] at hsum ⊢
        omega
  | trans _ _ ih1 ih2 => intro r h; exact ih2 r (ih1 r h)

theorem reach_step (a b : Int) (rest : List Int) (r : Int)
    (h : ∃ S, S.length = (|a - b| :: rest).length ∧ is_signs S ∧
      signed_sum S (|a - b| :: rest) = r) :
    ∃ S, S.length = (a :: b :: rest).length ∧ is_signs S ∧
      signed_sum S (a :: b :: rest) = r := by
  obtain ⟨S, hlen, hs, hsum⟩ := h
  cases S with
  | nil => simp at hlen
  | cons s S =>
    have hs0 := hs s (List.mem_cons_self _ _)
    have hs1 : is_signs S := fun y hy => hs y (List.mem_cons_of_mem _ hy)
    have hneg : -s = 1 ∨ -s = -1 := by
      rcases hs0 with e | e
      · right; rw [e]
      · left; rw [e]; rfl
    simp only [signed_sum, List.zipWith_cons_cons, List.sum_cons] at hsum
    rcases abs_cases (a - b) with ⟨e, _⟩ | ⟨e, _⟩
    · refine ⟨s :: -s :: S, by simpa using hlen, ?_, ?_⟩
      · intro z hz
        simp only [List.mem_cons] at hz
        rcases hz with rfl | rfl | hz
        · exact hs0
        · exact hneg
        · exact hs1 z hz
      · simp only [signed_sum, List.zipWith_cons_cons, List.sum_cons]
        rw [e] at hsum
        rw [← hsum]; ring
    · refine ⟨-s :: s :: S, by simpa using hlen, ?_, ?_⟩
      · intro z hz
        simp only [List.mem_cons] at hz
        rcases hz with rfl | rfl | hz
        · exact hneg
        · exact hs0
        · exact hs1 z hz
      · simp only [signed_sum, List.zipWith_cons_cons, List.sum_cons]
        rw [e] at hsum
        rw [← hsum]; ring

theorem kk_reference_fuel_reach (fuel : Nat) :
    ∀ (l : List Int) (r : Int), kk_reference_fuel fuel l = some r →
      ∃ S, S.length = l.length ∧ is_signs S ∧ signed_sum S l = r := by
  have single : ∀ r : Int, ∃ S, S.length = [r].length ∧ is_signs S ∧ signed_sum S [r] = r :=
    fun r => ⟨[1], rfl, by intro s hs; left; simpa using hs, by simp [signed_sum]⟩
  induction fuel with
  | zero =>
    intro l r h
    by_cases hl : 2 ≤ l.length
    · rw [kk_reference_fuel_zero l hl] at h; exact absurd h (by simp)
    · rw [kk_reference_fuel_small 0 l r hl h]; exact single r
  | succ fuel ih =>
    intro l r h
    by_cases hl : 2 ≤ l.length
    · obtain ⟨a, ha⟩ := max?_of_ne_nil l (by omega)
      have hmem := ((max?_eq_some_iff_int l a).mp ha).1
      have hae : (l.erase a).length = l.length - 1 := List.length_erase_of_mem hmem
      obtain ⟨b, hb⟩ := max?_of_ne_nil (l.erase a) (by omega)
      have hmemb := ((max?_eq_some_iff_int _ b).mp hb).1
      rw [kk_reference_fuel_step fuel l a b hl ha hb] at h
      have h1 := reach_step a b _ r (ih _ r h)
      have p : (a :: b :: (l.erase a).erase b).Perm l :=
        ((List.perm_cons_erase hmem).trans
          (List.Perm.cons a (List.perm_cons_erase hmemb))).symm
      exact reach_perm p r h1
    · rw [kk_reference_fuel_small _ l r hl h]; exact single r

theorem kk_reference_fuel_nonneg (fuel : Nat) :
    ∀ (l : List Int) (r : Int), 2 ≤ l.length → kk_reference_fuel fuel l = some r →
      0 ≤ r := by
  induction fuel with
  | zero =>
    intro l r hl h
    rw [kk_reference_fuel_zero l hl] at h; exact absurd h (by simp)
  | succ fuel ih =>
    intro l r hl h
    obtain ⟨a, ha⟩ := max?_of_ne_nil l (by omega)
    have hmem := ((max?_eq_some_iff_int l a).mp ha).1
    have hae : (l.erase a).length = l.length - 1 := List.length_erase_of_mem hmem
    obtain ⟨b, hb⟩ := max?_of_ne_nil (l.erase a) (by omega)
    rw [kk_reference_fuel_step fuel l a b hl ha hb] at h
    by_cases hl2 : 2 ≤ (|a - b| :: (l.erase a).erase b).length
    · exact ih _ r hl2 h
    · have := kk_reference_fuel_small fuel _ r hl2 h
      have e : |a - b| = r := by
        have := congrArg List.head? this
        simpa using this
      rw [← e]; exact abs_nonneg _

theorem long_fold_congr (a s : Nat → Int) (l : List Nat) :
    ∀ x y : Int, x % 18446744073709551616 = y % 18446744073709551616 →
      (l.foldl (fun r i => long_add r (long_mul (s i) (a i))) x) % 18446744073709551616 =
        (l.foldl (fun r i => r + s i * a i) y) % 18446744073709551616 := by
  induction l with
  | nil => intro x y h; exact h
  | cons i t ih =>
    intro x y h
    simp only [List.foldl_cons]
    apply ih
    unfold long_add long_mul long_wrap
    generalize s i * a i = p
    omega

theorem long_fold_range (a s : Nat → Int) (l : List Nat) :
    ∀ x : Int, LONG_MIN ≤ x ∧ x ≤ LONG_MAX →
      LONG_MIN ≤ l.foldl (fun r i => long_add r (long_mul (s i) (a i))) x ∧
        l.foldl (fun r i => long_add r (long_mul (s i) (a i))) x ≤ LONG_MAX := by
  induction l with
  | nil => intro x h; exact h
  | cons i t ih =>
    intro x _
    simp only [List.foldl_cons]
    apply ih
    unfold long_add long_wrap LONG_MIN LONG_MAX
    omega

theorem standard_residue_long_eq (N : Nat) (A S : List Int)
    (h : standard_residue N A S ≤ LONG_MAX) :
    standard_residue_long N A S = standard_residue N A S := by
  unfold standard_residue at h ⊢
  unfold standard_residue_long
  simp only at h ⊢
  have hc := long_fold_congr (fun i => A.getD i 0) (fun i => S.getD i 0) (List.range N) 0 0 rfl
  have hr := long_fold_range (fun i => A.getD i 0) (fun i => S.getD i 0) (List.range N) 0
    (by unfold LONG_MIN LONG_MAX; omega)
  simp only at hc hr
  generalize (List.range N).foldl
    (fun residue i => long_add residue (long_mul (S.getD i 0) (A.getD i 0))) 0 = w at hc hr ⊢
  generalize (List.range N).foldl (fun residue i => residue + S.getD i 0 * A.getD i 0) 0 = e
    at hc h ⊢
  have hw : w = e := by
    have h1 := neg_abs_le e
    have h2 := le_abs_self e
    unfold LONG_MIN at hr
    unfold LONG_MAX at hr h
    omega
  rw [hw]
  unfold labs
  exact long_wrap_of_range _ (by have := abs_nonneg e; unfold LONG_MIN; omega) h

/-- C4, as stated, fails on 64-bit values: on `[LONG_MAX, -1]` the value
returned by `karmarkar_karp` is `LONG_MIN`, which is negative and so the
residue of no sign assignment. -/
theorem karmarkar_karp_negative_result :
    ([LONG_MAX, -1] : List Int).length = 2 ∧
      karmarkar_karp 2 [LONG_MAX, -1] = some (-9223372036854775808) ∧
      ¬ ∃ r, karmarkar_karp 2 [LONG_MAX, -1] = some r ∧ 0 ≤ r ∧
        ∃ S, S.length = 2 ∧ is_signs S ∧ standard_residue 2 [LONG_MAX, -1] S = r := by
  have e : karmarkar_karp 2 [LONG_MAX, -1] = some (-9223372036854775808) := by decide
  refine ⟨by decide, e, ?_⟩
  rintro ⟨r, hr, hnn, _⟩
  rw [e] at hr
  have := Option.some.inj hr
  omega

/-- C4. For an input `A` of length `N ≥ 2` whose entries are non-negative
values of type `long`, or whose absolute values sum to at most `LONG_MAX`
(entries of either sign), `karmarkar_karp` returns a non-negative value that
is the residue of `A` under some sign assignment of length `N`, in exact
arithmetic and in the 64-bit arithmetic of `long` alike. -/
theorem karmarkar_karp_is_residue (N : Nat) (A : List Int) (hA : A.length = N)
    (hN : 2 ≤ N)
    (hrange : (∀ a ∈ A, 0 ≤ a ∧ a ≤ LONG_MAX) ∨
      (A.map (fun a => |a|)).sum ≤ LONG_MAX) :
    ∃ r, karmarkar_karp N A = some r ∧ 0 ≤ r ∧
      ∃ S, S.length = N ∧ is_signs S ∧ standard_residue N A S = r ∧
        standard_residue_long N A S = r := by
  obtain ⟨r, hr⟩ := kk_reference_fuel_returns A.length A (by omega) (by omega)
  have hnn := kk_reference_fuel_nonneg A.length A r (by omega) hr
  have hmax := kk_reference_fuel_in_range A.length A r hrange hr
  obtain ⟨S, h1, h2, h3⟩ := kk_reference_fuel_reach A.length A r hr
  have hres : standard_residue N A S = r := by
    rw [standard_residue_eq N A S hA (h1.trans hA), h3]
    exact abs_of_nonneg hnn
  refine ⟨r, ?_, hnn, S, h1.trans hA, h2, hres, ?_⟩
  · rw [karmarkar_karp_refines N A hA hrange]; exact hr
  · rw [standard_residue_long_eq N A S (by rw [hres]; exact le_trans (le_abs_self r) hmax)]
    exact hres

theorem karmarkar_karp_is_residue_witness :
    (∃ r, karmarkar_karp 5 [10, -3, 7, 8, -20] = some r ∧ 0 ≤ r ∧
      ∃ S, S.length = 5 ∧ is_signs S ∧ standard_residue 5 [10, -3, 7, 8, -20] S = r ∧
        standard_residue_long 5 [10, -3, 7, 8, -20] S = r) ∧
    (∃ r, karmarkar_karp 3 [LONG_MAX, LONG_MAX, 5] = some r ∧ 0 ≤ r ∧
      ∃ S, S.length = 3 ∧ is_signs S ∧ standard_residue 3 [LONG_MAX, LONG_MAX, 5] S = r ∧
        standard_residue_long 3 [LONG_MAX, LONG_MAX, 5] S = r) :=
  ⟨karmarkar_karp_is_residue 5 [10, -3, 7, 8, -20] (by decide) (by decide)
      (Or.inr (by decide)),
    karmarkar_karp_is_residue 3 [LONG_MAX, LONG_MAX, 5] (by decide) (by decide)
      (Or.inl (by decide))⟩

/-! ## Contracts of the heap operations -/

/-- C8. On a heap in max-heap order with a free slot, `heap_insert` raises the
size by one (so it stays within the capacity), adds one copy of the value to
the multiset of stored elements, and re-establishes max-heap order. -/
theorem heap_insert_preserves_heap (h : heap) (v : Int) (hwf : heap_wf h)
    (hlt : h.size < h.capacity) (hord : max_heap_order h) :
    (heap_insert h v).size = h.size + 1 ∧
      (heap_insert h v).size ≤ (heap_insert h v).capacity ∧
      (heap_insert h v).capacity = h.capacity ∧
      (↑(heap_elements (heap_insert h v)) : Multiset Int) = v ::ₘ ↑(heap_elements h) ∧
      max_heap_order (heap_insert h v) := by
  obtain ⟨r1, r2, r3, r4, r5⟩ :=
    heap_insert_correct h v hwf hlt ((max_heap_order_iff h).mp hord)
  refine ⟨r1, r3.2, r2, ?_, (max_heap_order_iff _).mpr r5⟩
  rw [Multiset.cons_coe]
  exact Multiset.coe_eq_coe.mpr r4

theorem heap_insert_preserves_heap_witness :
    (heap_insert ⟨[9, 4, 7, 1, 0, 0], 6, 4⟩ 8).size = 4 + 1 ∧
      (heap_insert ⟨[9, 4, 7, 1, 0, 0], 6, 4⟩ 8).size ≤
        (heap_insert ⟨[9, 4, 7, 1, 0, 0], 6, 4⟩ 8).capacity ∧
      (heap_insert ⟨[9, 4, 7, 1, 0, 0], 6, 4⟩ 8).capacity = 6 ∧
      (↑(heap_elements (heap_insert ⟨[9, 4, 7, 1, 0, 0], 6, 4⟩ 8)) : Multiset Int) =
        8 ::ₘ ↑(heap_elements ⟨[9, 4, 7, 1, 0, 0], 6, 4⟩) ∧
      max_heap_order (heap_insert ⟨[9, 4, 7, 1, 0, 0], 6, 4⟩ 8) :=
  heap_insert_preserves_heap ⟨[9, 4, 7, 1, 0, 0], 6, 4⟩ 8 (by decide) (by decide) (by decide)

/-- C9. On a non-empty heap in max-heap order, `heap_deletemax` returns the
maximum of the stored elements; afterwards the size is one less, exactly one
copy of the returned value has left the multiset of stored elements, and
max-heap order holds again. -/
theorem heap_deletemax_returns_max (h : heap) (hwf : heap_wf h) (hpos : 0 < h.size)
    (hord : max_heap_order h) :
    ∃ m h2, heap_deletemax h = some (m, h2) ∧
      m ∈ heap_elements h ∧ (∀ x ∈ heap_elements h, x ≤ m) ∧
      h2.size = h.size - 1 ∧
      (↑(heap_elements h2) : Multiset Int) = (↑(heap_elements h) : Multiset Int).erase m ∧
      max_heap_order h2 := by
  obtain ⟨h2, e, hm, hmax, hsz, _, _, hp, hord2⟩ :=
    heap_deletemax_correct h hwf hpos ((max_heap_order_iff h).mp hord)
  refine ⟨_, h2, e, hm, hmax, hsz, ?_, (max_heap_order_iff _).mpr hord2⟩
  have : (↑(heap_elements h) : Multiset Int) = h.array.getD 0 0 ::ₘ ↑(heap_elements h2) := by
    rw [Multiset.cons_coe]
    exact Multiset.coe_eq_coe.mpr hp
  rw [this, Multiset.erase_cons_head]

theorem heap_deletemax_returns_max_witness :
    ∃ m h2, heap_deletemax ⟨[9, 4, 7, 1, 3, 0], 6, 5⟩ = some (m, h2) ∧
      m ∈ heap_elements ⟨[9, 4, 7, 1, 3, 0], 6, 5⟩ ∧
      (∀ x ∈ heap_elements ⟨[9, 4, 7, 1, 3, 0], 6, 5⟩, x ≤ m) ∧
      h2.size = 5 - 1 ∧
      (↑(heap_elements h2) : Multiset Int) =
        (↑(heap_elements ⟨[9, 4, 7, 1, 3, 0], 6, 5⟩) : Multiset Int).erase m ∧
      max_heap_order h2 :=
  heap_deletemax_returns_max ⟨[9, 4, 7, 1, 3, 0], 6, 5⟩ (by decide) (by decide) (by decide)

/-- C10. On a heap that is at capacity, `heap_insert` changes nothing: the heap
it returns is the heap it was given, with the same size and the same stored
elements, so the size does not pass the capacity. -/
theorem heap_insert_at_capacity (h : heap) (v : Int) (hfull : h.size = h.capacity) :
    heap_insert h v = h ∧
      (heap_insert h v).size = h.size ∧
      heap_elements (heap_insert h v) = heap_elements h ∧
      (heap_insert h v).size ≤ (heap_insert h v).capacity := by
  have e : heap_insert h v = h := by
    unfold heap_insert
    rw [if_pos hfull]
  rw [e]
  exact ⟨rfl, rfl, rfl, le_of_eq hfull⟩

theorem heap_insert_at_capacity_witness :
    heap_insert ⟨[9, 4, 7], 3, 3⟩ 8 = ⟨[9, 4, 7], 3, 3⟩ ∧
      (heap_insert ⟨[9, 4, 7], 3, 3⟩ 8).size = 3 ∧
      heap_elements (heap_insert ⟨[9, 4, 7], 3, 3⟩ 8) = heap_elements ⟨[9, 4, 7], 3, 3⟩ ∧
      (heap_insert ⟨[9, 4, 7], 3, 3⟩ 8).size ≤ (heap_insert ⟨[9, 4, 7], 3, 3⟩ 8).capacity :=
  heap_insert_at_capacity ⟨[9, 4, 7], 3, 3⟩ 8 (by decide)

/-! ## Local search never returns worse than its first candidate -/

theorem repeated_random_loop_le (RAND_MAX N : Nat) (A : List Int) (n : Nat) :
    ∀ (S : List Int) (draws : List Nat) (S1 : List Int) (d1 : List Nat),
      repeated_random_loop RAND_MAX N A n S draws = some (S1, d1) →
      standard_residue N A S1 ≤ standard_residue N A S := by
  induction n with
  | zero =>
    intro S draws S1 d1 h
    simp only [repeated_random_loop, Option.some.injEq, Prod.mk.injEq] at h
    rw [h.1]
  | succ n ih =>
    intro S draws S1 d1 h
    unfold repeated_random_loop at h
    split at h
    · exact absurd h (by simp)
    · split_ifs at h with hlt
      · exact le_trans (ih _ _ _ _ h) (le_of_lt hlt)
      · exact ih _ _ _ _ h

theorem hill_climbing_loop_le (RAND_MAX N : Nat) (A : List Int) (n : Nat) :
    ∀ (S : List Int) (draws : List Nat) (S1 : List Int) (d1 : List Nat),
      hill_climbing_loop RAND_MAX N A n S draws = some (S1, d1) →
      standard_residue N A S1 ≤ standard_residue N A S := by
  induction n with
  | zero =>
    intro S draws S1 d1 h
    simp only [hill_climbing_loop, Option.some.injEq, Prod.mk.injEq] at h
    rw [h.1]
  | succ n ih =>
    intro S draws S1 d1 h
    unfold hill_climbing_loop at h
    split at h
    · exact absurd h (by simp)
    · split_ifs at h with hlt
      · exact le_trans (ih _ _ _ _ h) (le_of_lt hlt)
      · exact ih _ _ _ _ h

theorem simulated_annealing_step_le (accept : Nat → Int → Nat → Bool) (RAND_MAX N : Nat)
    (A : List Int) (i : Nat) (S Spp : List Int) (draws : List Nat)
    (S1 Spp1 : List Int) (d1 : List Nat)
    (h : simulated_annealing_step accept RAND_MAX N A i S Spp draws = some (S1, Spp1, d1)) :
    standard_residue N A Spp1 ≤ standard_residue N A Spp := by
  unfold simulated_annealing_step at h
  split at h
  · exact absurd h (by simp)
  · simp only at h
    split at h
    · exact absurd h (by simp)
    · simp only [Option.some.injEq, Prod.mk.injEq] at h
      obtain ⟨h1, h2, _⟩ := h
      rw [h1] at h2
      rw [← h2]
      split_ifs with hlt
      · exact le_of_lt hlt
      · exact le_rfl

theorem simulated_annealing_loop_le (accept : Nat → Int → Nat → Bool) (RAND_MAX N : Nat)
    (A : List Int) (n : Nat) :
    ∀ (i : Nat) (S Spp : List Int) (draws : List Nat) (S1 Spp1 : List Int) (d1 : List Nat),
      simulated_annealing_loop accept RAND_MAX N A n i S Spp draws = some (S1, Spp1, d1) →
      standard_residue N A Spp1 ≤ standard_residue N A Spp := by
  induction n with
  | zero =>
    intro i S Spp draws S1 Spp1 d1 h
    simp only [simulated_annealing_loop, Option.some.injEq, Prod.mk.injEq] at h
    rw [h.2.1]
  | succ n ih =>
    intro i S Spp draws S1 Spp1 d1 h
    unfold simulated_annealing_loop at h
    split at h
    · exact absurd h (by simp)
    · rename_i S2 Spp2 rest hstep
      exact le_trans (ih _ _ _ _ _ _ _ h)
        (simulated_annealing_step_le accept RAND_MAX N A i S Spp draws S2 Spp2 rest hstep)

theorem standard_generate_loop_returns (RAND_MAX : Nat) (n : Nat) :
    ∀ (S : List Int) (draws : List Nat), n ≤ draws.length →
      ∃ S1 rest, standard_generate_loop RAND_MAX n S draws = some (S1, rest) ∧
        rest.length = draws.length - n := by
  induction n with
  | zero => intro S draws _; exact ⟨S, draws, rfl, rfl⟩
  | succ n ih =>
    intro S draws h
    cases draws with
    | nil => simp at h
    | cons r t =>
      obtain ⟨S1, rest, h1, h2⟩ := ih (S ++ [if decide (r < RAND_MAX / 2) then 1 else -1]) t
        (by simpa using h)
      refine ⟨S1, rest, ?_, by simp [h2]⟩
      simp only [standard_generate_loop, randbool, rand]
      exact h1

theorem repeated_random_loop_returns (RAND_MAX N : Nat) (A : List Int) (n : Nat) :
    ∀ (S : List Int) (draws : List Nat), N * n ≤ draws.length →
      ∃ S1 rest, repeated_random_loop RAND_MAX N A n S draws = some (S1, rest) := by
  induction n with
  | zero => intro S draws _; exact ⟨S, draws, rfl⟩
  | succ n ih =>
    intro S draws h
    have hN : N ≤ draws.length := by
      have : N * (n + 1) = N * n + N := by ring
      omega
    obtain ⟨Sp, rest, h1, h2⟩ := standard_generate_loop_returns RAND_MAX N [] draws hN
    have h3 : N * n ≤ rest.length := by
      have : N * (n + 1) = N * n + N := by ring
      omega
    unfold repeated_random_loop
    simp only [standard_generate, h1]
    split_ifs
    · exact ih _ _ h3
    · exact ih _ _ h3

theorem repeated_random_returns (RAND_MAX N M : Nat) (A : List Int) (draws : List Nat)
    (h : N * (M + 1) ≤ draws.length) :
    ∃ r, repeated_random RAND_MAX N M A draws = some r := by
  have hN : N ≤ draws.length := by
    have : N * (M + 1) = N * M + N := by ring
    omega
  obtain ⟨S0, rest, h1, h2⟩ := standard_generate_loop_returns RAND_MAX N [] draws hN
  have h3 : N * M ≤ rest.length := by
    have : N * (M + 1) = N * M + N := by ring
    omega
  obtain ⟨S1, d1, h4⟩ := repeated_random_loop_returns RAND_MAX N A M S0 rest h3
  exact ⟨standard_residue N A S1, by simp [repeated_random, standard_generate, h1, h4]⟩

/-! ## The neighbour of a solution -/

theorem getD_set_eq (l : List Int) (n : Nat) (v : Int) (h : n < l.length) :
    (l.set n v).getD n 0 = v := by
  simp [List.getD_eq_getElem?_getD, List.getElem?_set, h]

theorem is_signs_getD (S : List Int) (hS : is_signs S) (k : Nat) (hk : k < S.length) :
    S.getD k 0 = 1 ∨ S.getD k 0 = -1 := by
  rw [List.getD_eq_getElem _ _ hk]
  exact hS _ (List.getElem_mem hk)

theorem is_signs_set_neg (S : List Int) (hS : is_signs S) (i : Nat) (hi : i < S.length) :
    is_signs (S.set i (-(S.getD i 0))) := by
  intro s hs
  rcases List.mem_or_eq_of_mem_set hs with h | h
  · exact hS s h
  · rcases is_signs_getD S hS i hi with e | e
    · right; rw [h, e]
    · left; rw [h, e]; rfl

theorem standard_neighbor_loop_rejects (RAND_MAX N i : Nat) (rejected : List Nat) (rj : Nat)
    (rest : List Nat) (hrej : ∀ r ∈ rejected, randindex_of RAND_MAX N r = i)
    (hj : randindex_of RAND_MAX N rj ≠ i) :
    standard_neighbor_loop RAND_MAX N i (rejected ++ rj :: rest) =
      some (randindex_of RAND_MAX N rj, rest) := by
  induction rejected with
  | nil => simp [standard_neighbor_loop, hj]
  | cons r t ih =>
    have h1 := hrej r (List.mem_cons_self _ _)
    simp only [List.cons_append, standard_neighbor_loop, h1, if_true]
    exact ih (fun x hx => hrej x (List.mem_cons_of_mem _ hx))

/-- C6. For a solution `S` of length `N` with entries `1` or `-1`, a first
drawn index `i < N` and, when the coin is true, a run of rejected draws (each
giving `i` again) followed by a draw giving `j < N`, `j ≠ i`:
`standard_neighbor` returns a solution of length `N` with entries `1` or `-1`
that differs from `S` exactly at `i` when the coin is false, and exactly at
`i` and `j` when the coin is true. `S` is an argument of a pure function, so
it is not modified. -/
theorem standard_neighbor_flips (RAND_MAX N : Nat) (S : List Int) (ri rc : Nat)
    (rejected : List Nat) (rj : Nat) (rest : List Nat) (i j : Nat)
    (hS : S.length = N) (hsigns : is_signs S)
    (hi : randindex_of RAND_MAX N ri = i) (hiN : i < N)
    (hrej : ∀ r ∈ rejected, randindex_of RAND_MAX N r = i)
    (hj : randindex_of RAND_MAX N rj = j) (hjN : j < N) (hji : j ≠ i) :
    (¬ rc < RAND_MAX / 2 →
      ∃ S1, standard_neighbor RAND_MAX N S (ri :: rc :: rest) = some (S1, rest) ∧
        S1.length = N ∧ is_signs S1 ∧
        ∀ k, k < N → (S1.getD k 0 ≠ S.getD k 0 ↔ k = i)) ∧
    (rc < RAND_MAX / 2 →
      ∃ S2, standard_neighbor RAND_MAX N S (ri :: rc :: (rejected ++ rj :: rest)) =
          some (S2, rest) ∧
        S2.length = N ∧ is_signs S2 ∧
        ∀ k, k < N → (S2.getD k 0 ≠ S.getD k 0 ↔ k = i ∨ k = j)) := by
  have htake : S.take N = S := List.take_of_length_le (le_of_eq hS)
  have hne : ∀ k, k < N → -(S.getD k 0) ≠ S.getD k 0 := by
    intro k hk
    rcases is_signs_getD S hsigns k (by omega) with e | e <;> rw [e] <;> decide
  have hs1 : is_signs (S.set i (-(S.getD i 0))) := is_signs_set_neg S hsigns i (by omega)
  constructor
  · intro hc
    refine ⟨S.set i (-(S.getD i 0)), ?_, by simp [hS], hs1, ?_⟩
    · simp [-List.getD_eq_getElem?_getD, standard_neighbor, randindex, rand, randbool,
        flip_sign, htake, hi, hiN, hc]
    · intro k hk
      by_cases hki : k = i
      · subst hki
        rw [getD_set_eq _ _ _ (by omega)]
        exact ⟨fun _ => rfl, fun _ => hne k hk⟩
      · rw [getD_set_ne _ _ _ _ hki]
        exact ⟨fun h => absurd rfl h, fun h => absurd h hki⟩
  · intro hc
    have hloop := standard_neighbor_loop_rejects RAND_MAX N i rejected rj rest hrej
      (by rw [hj]; exact hji)
    rw [hj] at hloop
    have hji2 : (S.set i (-(S.getD i 0))).getD j 0 = S.getD j 0 := getD_set_ne _ _ _ _ hji
    refine ⟨(S.set i (-(S.getD i 0))).set j (-(S.getD j 0)), ?_, by simp [hS], ?_, ?_⟩
    · simp [-List.getD_eq_getElem?_getD, standard_neighbor, randindex, rand, randbool,
        flip_sign, htake, hi, hiN, hc, hloop, hjN, hji2]
    · have := is_signs_set_neg _ hs1 j (by simp; omega)
      rwa [hji2] at this
    · intro k hk
      by_cases hkj : k = j
      · subst hkj
        rw [getD_set_eq _ _ _ (by simp; omega)]
        exact ⟨fun _ => Or.inr rfl, fun _ => hne k hk⟩
      · rw [getD_set_ne _ _ _ _ hkj]
        by_cases hki : k = i
        · subst hki
          rw [getD_set_eq _ _ _ (by omega)]
          exact ⟨fun _ => Or.inl rfl, fun _ => hne k hk⟩
        · rw [getD_set_ne _ _ _ _ hki]
          exact ⟨fun h => absurd rfl h, fun h => h.elim (absurd · hki) (absurd · hkj)⟩

theorem standard_neighbor_flips_witness :
    (∃ S1, standard_neighbor 10 3 [1, -1, 1] (4 :: 7 :: [1]) = some (S1, [1]) ∧
        S1.length = 3 ∧ is_signs S1 ∧
        ∀ k, k < 3 → (S1.getD k 0 ≠ ([1, -1, 1] : List Int).getD k 0 ↔ k = 1)) ∧
    (∃ S2, standard_neighbor 10 3 [1, -1, 1] (4 :: 2 :: ([5, 4] ++ 8 :: [1])) =
          some (S2, [1]) ∧
        S2.length = 3 ∧ is_signs S2 ∧
        ∀ k, k < 3 → (S2.getD k 0 ≠ ([1, -1, 1] : List Int).getD k 0 ↔ k = 1 ∨ k = 2)) :=
  ⟨(standard_neighbor_flips 10 3 [1, -1, 1] 4 7 [5, 4] 8 [1] 1 2 (by decide) (by decide)
      (by decide) (by decide) (by decide) (by decide) (by decide) (by decide)).1 (by decide),
    (standard_neighbor_flips 10 3 [1, -1, 1] 4 2 [5, 4] 8 [1] 1 2 (by decide) (by decide)
      (by decide) (by decide) (by decide) (by decide) (by decide) (by decide)).2 (by decide)⟩
/-! ## The index generator -/

theorem randindex_of_rand_max (RAND_MAX N : Nat) (h : 0 < RAND_MAX) :
    randindex_of RAND_MAX N RAND_MAX = N := by
  unfold randindex_of
  rw [Nat.mul_comm]
  exact Nat.mul_div_cancel N h

theorem randindex_of_lt (RAND_MAX N r : Nat) (hN : 0 < N) (hr : r < RAND_MAX) :
    randindex_of RAND_MAX N r < N := by
  unfold randindex_of
  rw [Nat.div_lt_iff_lt_mul (by omega)]
  exact Nat.mul_lt_mul_of_pos_right hr hN |>.trans_eq (Nat.mul_comm _ _)

/-- C7. When `rand()` returns `RAND_MAX` (here `2147483647`, with `N = 100`) the
index computed by `randindex` is `N` itself, not an index below `N`, and
`standard_neighbor` then flips a position outside the solution: it has no
defined result. -/
theorem randindex_reaches_N :
    randindex_of 2147483647 100 2147483647 = 100 ∧
      ¬ randindex_of 2147483647 100 2147483647 < 100 ∧
      standard_neighbor 2147483647 100 (List.replicate 100 1) [2147483647, 0, 5] = none := by
  refine ⟨by decide, by decide, ?_⟩
  simp [standard_neighbor, randindex, rand, flip_sign, randindex_of]

/-! ## Iteration budgets are never exhausted -/

theorem heap_insert_loop_budget (f1 : Nat) :
    ∀ (f2 : Nat) (h : heap) (c : Nat), c ≤ f1 → c ≤ f2 →
      heap_insert_loop f1 h c = heap_insert_loop f2 h c := by
  induction f1 with
  | zero =>
    intro f2 h c h1 _
    have hc : c = 0 := by omega
    subst hc
    cases f2 <;> simp [heap_insert_loop]
  | succ f1 ih =>
    intro f2 h c h1 h2
    cases f2 with
    | zero =>
      have hc : c = 0 := by omega
      subst hc
      simp [heap_insert_loop]
    | succ f2 =>
      unfold heap_insert_loop
      split_ifs with hcond
      · have hp := heap_parent_lt c (Nat.pos_of_ne_zero hcond.1)
        exact ih f2 _ _ (by omega) (by omega)
      · rfl

theorem heapify_max_eq_of_leaf (h : heap) (s : Nat) (hs : h.size ≤ heap_left s) :
    heapify_max h s = s := by
  rcases heapify_max_spec h s with ⟨e, _, _⟩ | ⟨_, hm, _, _⟩ | ⟨_, hm, _, _⟩
  · exact e
  · omega
  · unfold heap_right at hm; omega

theorem heapify_max_gt (h : heap) (s : Nat) (hne : heapify_max h s ≠ s) :
    s < heapify_max h s ∧ heapify_max h s < h.size := by
  rcases heapify_max_spec h s with ⟨e, _, _⟩ | ⟨e, hm, _, _⟩ | ⟨e, hm, _, _⟩
  · exact absurd e hne
  · rw [e]; exact ⟨by unfold heap_left; omega, hm⟩
  · rw [e]; exact ⟨by unfold heap_right heap_left; omega, hm⟩

theorem heapify_fuel_budget (f1 : Nat) :
    ∀ (f2 : Nat) (h : heap) (s : Nat), h.size ≤ s + f1 → h.size ≤ s + f2 →
      heapify_fuel f1 h s = heapify_fuel f2 h s := by
  induction f1 with
  | zero =>
    intro f2 h s h1 _
    cases f2 with
    | zero => rfl
    | succ f2 =>
      rw [heapify_fuel_succ, heapify_max_eq_of_leaf h s (by unfold heap_left; omega)]
      simp [heapify_fuel]
  | succ f1 ih =>
    intro f2 h s h1 h2
    cases f2 with
    | zero =>
      rw [heapify_fuel_succ, heapify_max_eq_of_leaf h s (by unfold heap_left; omega)]
      simp [heapify_fuel]
    | succ f2 =>
      rw [heapify_fuel_succ, heapify_fuel_succ]
      split_ifs with hne
      · have := heapify_max_gt h s hne
        exact ih f2 _ _ (by rw [heap_swap_size]; omega) (by rw [heap_swap_size]; omega)
      · rfl

/-! ## Dispatch on the algorithm identifier -/

/-- C11. With a complete input file and the algorithm identifier 11, 12 or 13,
`main` does not return an error code: it calls through `ALGORITHMS[algorithm]`,
a slot outside the four entries of the table. The identifier 0 on the same
input is dispatched and prints a residue, and a short input file makes `main`
return 1. -/
theorem main_dispatches_outside_table :
    main (fun _ _ _ => false) 2147483647 4 2 4 11 (some [3, 1, 1, 1]) [] =
        main_outcome.call_outside_table ∧
      main (fun _ _ _ => false) 2147483647 4 2 4 12 (some [3, 1, 1, 1]) [] =
        main_outcome.call_outside_table ∧
      main (fun _ _ _ => false) 2147483647 4 2 4 13 (some [3, 1, 1, 1]) [] =
        main_outcome.call_outside_table ∧
      main (fun _ _ _ => false) 2147483647 4 2 4 0 (some [3, 1, 1, 1]) [] =
        main_outcome.exit 0 (some 0) ∧
      main (fun _ _ _ => false) 2147483647 4 2 4 11 (some [3, 1, 1]) [] =
        main_outcome.exit 1 none := by
  refine ⟨by decide, by decide, by decide, by decide, by decide⟩

/-! ## Karmarkar-Karp on the scenarios of the specification -/

/-- C13. With `N = 4` and `A = [3,1,1,1]`, `karmarkar_karp` returns 0. -/
theorem karmarkar_karp_3111 : karmarkar_karp 4 [3, 1, 1, 1] = some 0 := by decide

/-- C14. With `N = 4` and `A = [1,1,1,1]`, `karmarkar_karp` returns 0. -/
theorem karmarkar_karp_1111 : karmarkar_karp 4 [1, 1, 1, 1] = some 0 := by decide

/-- C15. With `N = 4` and `A = [1,0,0,0]`, `karmarkar_karp` returns 1. -/
theorem karmarkar_karp_1000 : karmarkar_karp 4 [1, 0, 0, 0] = some 1 := by decide

/-! ## The error branches of the heap are not reached -/

theorem karmarkar_karp_loop_traced_erase (fuel : Nat) :
    ∀ (h : heap) (calls : List heap_call) (rounds : Nat),
      (karmarkar_karp_loop_traced fuel h calls rounds).map (fun p => p.1) =
        karmarkar_karp_loop fuel h := by
  induction fuel with
  | zero =>
    intro h calls rounds
    simp only [karmarkar_karp_loop_traced, karmarkar_karp_loop]
    split_ifs <;> rfl
  | succ fuel ih =>
    intro h calls rounds
    simp only [karmarkar_karp_loop_traced, karmarkar_karp_loop]
    split_ifs
    · cases heap_deletemax h with
      | none => rfl
      | some p1 =>
        obtain ⟨a, h1⟩ := p1
        simp only
        cases heap_deletemax h1 with
        | none => rfl
        | some p2 =>
          obtain ⟨b, h2⟩ := p2
          simp only
          exact ih _ _ _
    · rfl

theorem karmarkar_karp_build_traced_succ (N : Nat) (A : List Int) (k : Nat) :
    karmarkar_karp_build_traced N A (k + 1) =
      (heap_insert (karmarkar_karp_build_traced N A k).1 (A.getD k 0),
        (karmarkar_karp_build_traced N A k).2 ++
          [heap_call.insert (karmarkar_karp_build_traced N A k).1.size
            (karmarkar_karp_build_traced N A k).1.capacity]) := by
  simp [karmarkar_karp_build_traced, List.range_succ, List.foldl_append]

theorem karmarkar_karp_build_traced_fst (N : Nat) (A : List Int) (k : Nat) :
    (karmarkar_karp_build_traced N A k).1 = karmarkar_karp_build N A k := by
  induction k with
  | zero => rfl
  | succ k ih => rw [karmarkar_karp_build_traced_succ, karmarkar_karp_build_succ, ih]

theorem karmarkar_karp_build_traced_snd (N : Nat) (A : List Int) (hA : A.length = N) :
    ∀ k, k ≤ N →
      (karmarkar_karp_build_traced N A k).2 =
        (List.range k).map (fun i => heap_call.insert i N) := by
  intro k
  induction k with
  | zero => intro _; rfl
  | succ k ih =>
    intro hk
    obtain ⟨h1, h2, _⟩ := karmarkar_karp_build_correct N A hA k (by omega)
    rw [karmarkar_karp_build_traced_succ]
    simp only
    rw [ih (by omega), karmarkar_karp_build_traced_fst, h1, h2, List.range_succ,
      List.map_append]
    rfl

theorem karmarkar_karp_loop_traced_calls (fuel : Nat) :
    ∀ (h : heap) (calls : List heap_call) (rounds : Nat), heap_wf h → parent_order h →
      0 < h.size → h.size ≤ fuel + 1 →
      ∃ h1, karmarkar_karp_loop_traced fuel h calls rounds =
          some (h1, calls ++ kk_loop_calls h.capacity (h.size - 1), rounds + (h.size - 1)) ∧
        h1.size = 1 ∧ heap_wf h1 ∧ parent_order h1 := by
  induction fuel with
  | zero =>
    intro h calls rounds hwf hord hpos hle
    have h1 : h.size = 1 := by omega
    refine ⟨h, ?_, h1, hwf, hord⟩
    simp [karmarkar_karp_loop_traced, h1, kk_loop_calls]
  | succ fuel ih =>
    intro h calls rounds hwf hord hpos hle
    by_cases hs : 2 ≤ h.size
    · obtain ⟨h1, e1, _, _, hsz1, hcap1, hwf1, _, hord1⟩ :=
        heap_deletemax_correct h hwf (by omega) hord
      obtain ⟨h2, e2, _, _, hsz2, hcap2, hwf2, _, hord2⟩ :=
        heap_deletemax_correct h1 hwf1 (by omega) hord1
      have hlt : h2.size < h2.capacity := by
        have := hwf.2
        omega
      obtain ⟨hsz3, hcap3, hwf3, _, hord3⟩ :=
        heap_insert_correct h2 (labs (long_sub (h.array.getD 0 0) (h1.array.getD 0 0))) hwf2 hlt
          hord2
      obtain ⟨hf, ef, r1, r2, r3⟩ := ih
        (heap_insert h2 (labs (long_sub (h.array.getD 0 0) (h1.array.getD 0 0))))
        (calls ++ [heap_call.deletemax h.size, heap_call.deletemax h1.size,
          heap_call.insert h2.size h2.capacity]) (rounds + 1) hwf3 hord3 (by omega) (by omega)
      refine ⟨hf, ?_, r1, r2, r3⟩
      simp only [karmarkar_karp_loop_traced, if_pos hs, e1, e2]
      rw [ef, hsz3, hcap3, hcap2, hcap1, hsz2, hsz1]
      obtain ⟨j, hj⟩ : ∃ j, h.size = j + 2 := ⟨h.size - 2, by omega⟩
      rw [hj]
      simp only [Nat.add_sub_cancel, kk_loop_calls, List.append_assoc]
      have e3 : j + 2 - 1 = j + 1 := by omega
      have e4 : j + 2 - 1 - 1 = j := by omega
      have e5 : j + 1 - 1 = j := by omega
      simp only [e3, e4, e5, kk_loop_calls, List.append_assoc]
      have e6 : rounds + 1 + j = rounds + (j + 1) := by omega
      rw [e6]
    · have h1 : h.size = 1 := by omega
      refine ⟨h, ?_, h1, hwf, hord⟩
      simp [karmarkar_karp_loop_traced, h1, kk_loop_calls]

theorem kk_loop_calls_ok (N : Nat) :
    ∀ j, j < N → ∀ c ∈ kk_loop_calls N j, c.takes_error_branch = false := by
  intro j
  induction j with
  | zero => intro _ c hc; simp [kk_loop_calls] at hc
  | succ j ih =>
    intro hj c hc
    simp only [kk_loop_calls, List.cons_append, List.nil_append, List.mem_cons] at hc
    rcases hc with rfl | rfl | rfl | hc
    · simp [heap_call.takes_error_branch]
    · simp [heap_call.takes_error_branch]
    · simp [heap_call.takes_error_branch]; omega
    · exact ih (by omega) c hc

theorem kk_calls_ok (N : Nat) (hN : 1 ≤ N) :
    ∀ c ∈ kk_calls N, c.takes_error_branch = false := by
  intro c hc
  simp only [kk_calls, List.mem_append, List.mem_map, List.mem_range, List.mem_singleton] at hc
  rcases hc with (⟨k, hk, rfl⟩ | hc) | rfl
  · simp [heap_call.takes_error_branch]; omega
  · exact kk_loop_calls_ok N (N - 1) (by omega) c hc
  · simp [heap_call.takes_error_branch]

/-- C12. On an input of length `N ≥ 1`, `karmarkar_karp` returns its value
after exactly the calls `kk_calls N` of the heap operations: `N` insertions at
sizes `0, …, N - 1`, then `N - 1` iterations of the main loop, each removing
twice and inserting once and so lowering the size by one, then one
`heap_deletemax` at size 1. No call takes an error branch. -/
theorem karmarkar_karp_error_branches_unreachable (N : Nat) (A : List Int)
    (hA : A.length = N) (hN : 1 ≤ N) :
    ∃ r calls, karmarkar_karp_traced N A = some (r, calls, N - 1) ∧
      karmarkar_karp N A = some r ∧
      calls = kk_calls N ∧
      (∀ c ∈ calls, c.takes_error_branch = false) ∧
      calls.getLast? = some (heap_call.deletemax 1) := by
  obtain ⟨b1, b2, b3, b4, _⟩ := karmarkar_karp_build_correct N A hA N le_rfl
  have t1 := karmarkar_karp_build_traced_fst N A N
  have t2 := karmarkar_karp_build_traced_snd N A hA N le_rfl
  obtain ⟨h1, e1, s1, w1, o1⟩ := karmarkar_karp_loop_traced_calls
    (karmarkar_karp_build N A N).size (karmarkar_karp_build N A N)
    ((List.range N).map (fun i => heap_call.insert i N)) 0
    b3 b4 (by omega) (by omega)
  obtain ⟨h2, e2, _⟩ := heap_deletemax_correct h1 w1 (by omega) o1
  have er := karmarkar_karp_loop_traced_erase (karmarkar_karp_build N A N).size
    (karmarkar_karp_build N A N) ((List.range N).map (fun i => heap_call.insert i N)) 0
  rw [e1] at er
  simp only [Option.map_some'] at er
  rw [b1, b2] at e1
  have hcalls : (List.range N).map (fun i => heap_call.insert i N) ++ kk_loop_calls N (N - 1) ++
      [heap_call.deletemax h1.size] = kk_calls N := by
    rw [s1]; rfl
  refine ⟨h1.array.getD 0 0, kk_calls N, ?_, ?_, rfl, kk_calls_ok N hN, ?_⟩
  · simp only [karmarkar_karp_traced, t1, t2, b1, e1, e2, hcalls, Nat.zero_add]
  · rw [karmarkar_karp_eq]
    simp only [karmarkar_karp_from, ← er, e2]
  · simp [kk_calls]

theorem karmarkar_karp_error_branches_unreachable_witness :
    ∃ r calls, karmarkar_karp_traced 4 [3, 1, 1, 1] = some (r, calls, 4 - 1) ∧
      karmarkar_karp 4 [3, 1, 1, 1] = some r ∧
      calls = kk_calls 4 ∧
      (∀ c ∈ calls, c.takes_error_branch = false) ∧
      calls.getLast? = some (heap_call.deletemax 1) :=
  karmarkar_karp_error_branches_unreachable 4 [3, 1, 1, 1] (by decide) (by decide)

/-! ## Simulated annealing: an improving neighbour is accepted without a draw -/

/-- C18. For an input `A` of length `N ≥ 1` and a permutation `A2` of `A`,
`karmarkar_karp` returns the same value on `A2` as on `A`. -/
theorem karmarkar_karp_order_independent (N : Nat) (A A2 : List Int) (hA : A.length = N)
    (hN : 1 ≤ N) (p : A2.Perm A) :
    karmarkar_karp N A2 = karmarkar_karp N A ∧ ∃ r, karmarkar_karp N A = some r := by
  have hA2 : A2.length = N := p.length_eq.trans hA
  constructor
  · rw [karmarkar_karp_eq_with N A hA, karmarkar_karp_eq_with N A2 hA2, p.length_eq]
    exact kk_reference_with_perm _ _ _ _ p
  · rw [karmarkar_karp_eq_with N A hA]
    exact kk_reference_with_returns _ _ A (by omega) (by omega)

theorem karmarkar_karp_order_independent_witness :
    karmarkar_karp 5 [-20, 8, 10, -3, 7] = karmarkar_karp 5 [10, -3, 7, 8, -20] ∧
      ∃ r, karmarkar_karp 5 [10, -3, 7, 8, -20] = some r :=
  karmarkar_karp_order_independent 5 [10, -3, 7, 8, -20] [-20, 8, 10, -3, 7] (by decide)
    (by decide) (by decide)

/-! ## Termination and effect of heapify -/

theorem subtree_pre_of_children (h : heap) (s : Nat)
    (hl : subtree_heap_order h (heap_left s)) (hr : subtree_heap_order h (heap_right s)) :
    ∀ i, i < h.size → in_subtree s i → i ≠ s → heap_parent i ≠ s →
      h.array.getD i 0 ≤ h.array.getD (heap_parent i) 0 := by
  intro i hin hsub hne hpne
  have hle := in_subtree_le hsub
  have hpos : 0 < i := by omega
  have hp := heap_parent_lt i hpos
  have key : ∀ c, subtree_heap_order h c → heap_parent c = s → in_subtree c i →
      h.array.getD i 0 ≤ h.array.getD (heap_parent i) 0 := by
    intro c hc hpc hci
    have hic : i ≠ c := fun e => hpne (e ▸ hpc)
    have hpar := in_subtree_parent hci hic
    have := hc (heap_parent i) hpar (by omega)
    rcases eq_child_of_parent i hpos with e | e
    · have h1 := this.1 (by rw [← e]; exact hin)
      rwa [← e] at h1
    · have h1 := this.2 (by rw [← e]; exact hin)
      rwa [← e] at h1
  rcases in_subtree_cases hsub hne with h1 | h1
  · exact key _ hl (heap_parent_left s) h1
  · exact key _ hr (heap_parent_right s) h1

/-- C17. For a heap and an index `start` below its size whose two child
subtrees are in max-heap order, `heapify` terminates: the index it recurses on
is strictly larger and below the size, and every budget of at least
`size - start` calls gives the same heap. The result has the subtree rooted at
`start` in max-heap order, stores the same multiset of elements, and has every
entry outside that subtree unchanged. -/
theorem heapify_restores_order (h : heap) (start : Nat) (hlen : h.size ≤ h.array.length)
    (hs : start < h.size) (hl : subtree_heap_order h (heap_left start))
    (hr : subtree_heap_order h (heap_right start)) :
    (∀ (g : heap) (s : Nat), heapify_max g s ≠ s →
        s < heapify_max g s ∧ heapify_max g s < g.size) ∧
      (∀ fuel, h.size - start ≤ fuel → heapify_fuel fuel h start = heapify h start) ∧
      (heapify h start).size = h.size ∧
      (heapify h start).array.length = h.array.length ∧
      subtree_heap_order (heapify h start) start ∧
      (↑(heap_elements (heapify h start)) : Multiset Int) = ↑(heap_elements h) ∧
      (∀ i, ¬ in_subtree start i →
        (heapify h start).array.getD i 0 = h.array.getD i 0) := by
  obtain ⟨r1, _, r3, r4, r5, r6, _⟩ := heapify_fuel_correct (h.size - start) h start
    (by omega) hs hlen (subtree_pre_of_children h start hl hr)
  refine ⟨heapify_max_gt, ?_, r1, r3, ?_, Multiset.coe_eq_coe.mpr r4, r6⟩
  · intro fuel hf
    exact heapify_fuel_budget fuel (h.size - start) h start (by omega) (by omega)
  · intro i hsub hin
    have hsz : (heapify h start).size = h.size := r1
    rw [hsz] at hin ⊢
    constructor
    · intro hlt
      have := r5 (heap_left i) hlt (in_subtree_trans hsub (in_subtree_left i))
        (by have := in_subtree_le hsub; unfold heap_left; omega)
      rwa [heap_parent_left] at this
    · intro hlt
      have := r5 (heap_right i) hlt (in_subtree_trans hsub (in_subtree_right i))
        (by have := in_subtree_le hsub; unfold heap_right heap_left; omega)
      rwa [heap_parent_right] at this

theorem heapify_restores_order_witness :
    (∀ (g : heap) (s : Nat), heapify_max g s ≠ s →
        s < heapify_max g s ∧ heapify_max g s < g.size) ∧
      (∀ fuel, (heap.mk [9, 1, 7, 4, 8, 0] 6 5).size - 1 ≤ fuel →
        heapify_fuel fuel (heap.mk [9, 1, 7, 4, 8, 0] 6 5) 1 =
          heapify (heap.mk [9, 1, 7, 4, 8, 0] 6 5) 1) ∧
      (heapify (heap.mk [9, 1, 7, 4, 8, 0] 6 5) 1).size = 5 ∧
      (heapify (heap.mk [9, 1, 7, 4, 8, 0] 6 5) 1).array.length = 6 ∧
      subtree_heap_order (heapify (heap.mk [9, 1, 7, 4, 8, 0] 6 5) 1) 1 ∧
      (↑(heap_elements (heapify (heap.mk [9, 1, 7, 4, 8, 0] 6 5) 1)) : Multiset Int) =
        ↑(heap_elements (heap.mk [9, 1, 7, 4, 8, 0] 6 5)) ∧
      (∀ i, ¬ in_subtree 1 i →
        (heapify (heap.mk [9, 1, 7, 4, 8, 0] 6 5) 1).array.getD i 0 =
          (heap.mk [9, 1, 7, 4, 8, 0] 6 5).array.getD i 0) :=
  heapify_restores_order (heap.mk [9, 1, 7, 4, 8, 0] 6 5) 1 (by decide) (by decide)
    (by
      intro i hsub hin
      have hle : heap_left 1 ≤ i := in_subtree_le hsub
      have h5 : i < 5 := hin
      have h3 : 3 ≤ i := hle
      interval_cases i <;> decide)
    (by
      intro i hsub hin
      have hle : heap_right 1 ≤ i := in_subtree_le hsub
      have h5 : i < 5 := hin
      have h4 : 4 ≤ i := hle
      interval_cases i
      decide)

/-! ## Minimum over the candidates of a run -/

theorem min?_eq_some_iff_int (l : List Int) (a : Int) :
    l.min? = some a ↔ a ∈ l ∧ ∀ b ∈ l, a ≤ b := by
  haveI : Std.Antisymm (fun (x y : Int) => x ≤ y) := ⟨fun h1 h2 => le_antisymm h1 h2⟩
  exact List.min?_eq_some_iff (fun x => le_refl x)
    (fun x y => by rcases le_total x y with h | h <;> simp [h])
    (fun x y z => le_min_iff)

theorem residue_of_kept (N : Nat) (A S Sprime : List Int) :
    standard_residue N A
        (if standard_residue N A Sprime < standard_residue N A S then Sprime else S) =
      min (standard_residue N A S) (standard_residue N A Sprime) := by
  split_ifs with h
  · exact (min_eq_right (le_of_lt h)).symm
  · exact (min_eq_left (not_lt.mp h)).symm

theorem repeated_random_loop_min (RAND_MAX N : Nat) (A : List Int) (n : Nat) :
    ∀ (S : List Int) (draws : List Nat) (S1 : List Int) (d1 : List Nat),
      repeated_random_loop RAND_MAX N A n S draws = some (S1, d1) →
      ∃ cs, repeated_random_candidates RAND_MAX N n draws = some cs ∧ cs.length = n ∧
        standard_residue N A S1 =
          (cs.map (standard_residue N A)).foldl min (standard_residue N A S) := by
  induction n with
  | zero =>
    intro S draws S1 d1 h
    simp only [repeated_random_loop, Option.some.injEq, Prod.mk.injEq] at h
    exact ⟨[], rfl, rfl, by rw [h.1]; rfl⟩
  | succ n ih =>
    intro S draws S1 d1 h
    cases hg : standard_generate RAND_MAX N draws with
    | none => simp [repeated_random_loop, hg] at h
    | some p =>
      obtain ⟨Sp, rest⟩ := p
      have h2 : repeated_random_loop RAND_MAX N A n
          (if standard_residue N A Sp < standard_residue N A S then Sp else S) rest =
          some (S1, d1) := by
        simp only [repeated_random_loop, hg] at h
        split_ifs at h ⊢ <;> exact h
      obtain ⟨cs, c1, c2, c3⟩ := ih _ _ _ _ h2
      refine ⟨Sp :: cs, ?_, by simp [c2], ?_⟩
      · simp only [repeated_random_candidates, hg, c1]
      · rw [c3, residue_of_kept]
        rfl

theorem simulated_annealing_step_incumbent (accept : Nat → Int → Nat → Bool)
    (RAND_MAX N : Nat) (A : List Int) (i : Nat) (S Spp : List Int) (draws : List Nat)
    (S1 Spp1 : List Int) (d1 : List Nat)
    (h : simulated_annealing_step accept RAND_MAX N A i S Spp draws = some (S1, Spp1, d1)) :
    standard_residue N A Spp1 = min (standard_residue N A Spp) (standard_residue N A S1) := by
  unfold simulated_annealing_step at h
  split at h
  · exact absurd h (by simp)
  · simp only at h
    split at h
    · exact absurd h (by simp)
    · simp only [Option.some.injEq, Prod.mk.injEq] at h
      obtain ⟨h1, h2, _⟩ := h
      rw [h1] at h2
      rw [← h2]
      exact residue_of_kept N A Spp S1

theorem simulated_annealing_loop_walkers (accept : Nat → Int → Nat → Bool)
    (RAND_MAX N : Nat) (A : List Int) (n : Nat) :
    ∀ (i : Nat) (S Spp : List Int) (draws : List Nat)
      (X : List Int × List Int × List Nat),
      simulated_annealing_loop accept RAND_MAX N A n i S Spp draws = some X →
      ∃ ws, simulated_annealing_walkers accept RAND_MAX N A n i S Spp draws = some ws ∧
        ws.length = n ∧
        ∀ k, k ≤ n → ∃ Sk Sbest dk,
          simulated_annealing_loop accept RAND_MAX N A k i S Spp draws =
            some (Sk, Sbest, dk) ∧
          (S :: ws.take k).getLast? = some Sk ∧
          standard_residue N A Sbest =
            ((ws.take k).map (standard_residue N A)).foldl min (standard_residue N A Spp) := by
  induction n with
  | zero =>
    intro i S Spp draws X _
    refine ⟨[], rfl, rfl, ?_⟩
    intro k hk
    have hk0 : k = 0 := by omega
    subst hk0
    exact ⟨S, Spp, draws, rfl, rfl, rfl⟩
  | succ n ih =>
    intro i S Spp draws X h
    cases hs : simulated_annealing_step accept RAND_MAX N A i S Spp draws with
    | none => simp [simulated_annealing_loop, hs] at h
    | some p =>
      obtain ⟨S1, Spp1, rest⟩ := p
      simp only [simulated_annealing_loop, hs] at h
      obtain ⟨ws, w1, w2, w3⟩ := ih _ _ _ _ X h
      have hinc := simulated_annealing_step_incumbent accept RAND_MAX N A i S Spp draws
        S1 Spp1 rest hs
      refine ⟨S1 :: ws, ?_, by simp [w2], ?_⟩
      · simp only [simulated_annealing_walkers, hs, w1]
      · intro k hk
        cases k with
        | zero => exact ⟨S, Spp, draws, rfl, rfl, rfl⟩
        | succ k =>
          obtain ⟨Sk, Sbest, dk, e1, e2, e3⟩ := w3 k (by omega)
          refine ⟨Sk, Sbest, dk, ?_, ?_, ?_⟩
          · simp only [simulated_annealing_loop, hs]
            exact e1
          · rw [List.take_succ_cons, List.getLast?_cons_cons]
            exact e2
          · rw [e3, hinc]
            rfl

/-! ## Random sources on which the local searches return -/

theorem getD_drop_nat (l : List Nat) (j k : Nat) :
    (l.drop j).getD k 0 = l.getD (j + k) 0 := by
  simp [List.getD_eq_getElem?_getD, List.getElem?_drop]

theorem neighbor_draws_ok_drop (RAND_MAX N : Nat) (draws : List Nat) (j : Nat)
    (h : neighbor_draws_ok RAND_MAX N draws) :
    neighbor_draws_ok RAND_MAX N (draws.drop j) := by
  obtain ⟨h1, h2⟩ := h
  refine ⟨fun r hr => h1 r (List.mem_of_mem_drop hr), ?_⟩
  intro k hk hc
  rw [List.length_drop] at hk
  rw [getD_drop_nat] at hc ⊢
  rw [getD_drop_nat]
  exact h2 (j + k) (by omega) hc

theorem standard_generate_loop_drop (RAND_MAX : Nat) (n : Nat) :
    ∀ (S : List Int) (draws : List Nat), n ≤ draws.length →
      ∃ S1, standard_generate_loop RAND_MAX n S draws = some (S1, draws.drop n) := by
  induction n with
  | zero => intro S draws _; exact ⟨S, rfl⟩
  | succ n ih =>
    intro S draws h
    cases draws with
    | nil => simp at h
    | cons r t =>
      obtain ⟨S1, h1⟩ := ih (S ++ [if decide (r < RAND_MAX / 2) then 1 else -1]) t
        (by simpa using h)
      refine ⟨S1, ?_⟩
      simp only [standard_generate_loop, randbool, rand, List.drop_succ_cons]
      exact h1

theorem standard_neighbor_returns (RAND_MAX N : Nat) (S : List Int) (draws : List Nat)
    (hN : 0 < N) (hok : neighbor_draws_ok RAND_MAX N draws) (hlen : 3 ≤ draws.length) :
    ∃ j, 2 ≤ j ∧ j ≤ 3 ∧
      ∃ Sprime, standard_neighbor RAND_MAX N S draws = some (Sprime, draws.drop j) := by
  match draws, hok, hlen with
  | a :: b :: c :: t, hok, _ =>
    obtain ⟨h1, h2⟩ := hok
    have ha : randindex_of RAND_MAX N a < N :=
      randindex_of_lt RAND_MAX N a hN (h1 a (by simp))
    have hc : randindex_of RAND_MAX N c < N :=
      randindex_of_lt RAND_MAX N c hN (h1 c (by simp))
    by_cases hcoin : b < RAND_MAX / 2
    · have hne : randindex_of RAND_MAX N c ≠ randindex_of RAND_MAX N a := by
        have := h2 0 (by simp) (by simpa using hcoin)
        simpa using this
      refine ⟨3, by omega, le_rfl, ?_⟩
      simp [-List.getD_eq_getElem?_getD, standard_neighbor, randindex, rand, randbool,
        flip_sign, standard_neighbor_loop, ha, hc, hcoin, hne]
    · refine ⟨2, le_rfl, by omega, ?_⟩
      simp [-List.getD_eq_getElem?_getD, standard_neighbor, randindex, rand, randbool,
        flip_sign, ha, hcoin]

theorem hill_climbing_loop_returns (RAND_MAX N : Nat) (A : List Int) (hN : 0 < N) (n : Nat) :
    ∀ (S : List Int) (draws : List Nat), neighbor_draws_ok RAND_MAX N draws →
      3 * n ≤ draws.length →
      ∃ S1 d1, hill_climbing_loop RAND_MAX N A n S draws = some (S1, d1) := by
  induction n with
  | zero => intro S draws _ _; exact ⟨S, draws, rfl⟩
  | succ n ih =>
    intro S draws hok hlen
    obtain ⟨j, _, hj, Sp, e⟩ := standard_neighbor_returns RAND_MAX N S draws hN hok (by omega)
    have hok2 := neighbor_draws_ok_drop RAND_MAX N draws j hok
    have hlen2 : 3 * n ≤ (draws.drop j).length := by rw [List.length_drop]; omega
    unfold hill_climbing_loop
    simp only [e]
    split_ifs
    · exact ih _ _ hok2 hlen2
    · exact ih _ _ hok2 hlen2

theorem hill_climbing_returns (RAND_MAX N M : Nat) (A : List Int) (draws : List Nat)
    (hN : 0 < N) (hok : neighbor_draws_ok RAND_MAX N draws)
    (hlen : N + 3 * M ≤ draws.length) :
    ∃ r, hill_climbing RAND_MAX N M A draws = some r := by
  obtain ⟨S0, e⟩ := standard_generate_loop_drop RAND_MAX N [] draws (by omega)
  obtain ⟨S1, d1, e1⟩ := hill_climbing_loop_returns RAND_MAX N A hN M S0 (draws.drop N)
    (neighbor_draws_ok_drop RAND_MAX N draws N hok) (by rw [List.length_drop]; omega)
  exact ⟨standard_residue N A S1, by simp [hill_climbing, standard_generate, e, e1]⟩

theorem simulated_annealing_step_returns (accept : Nat → Int → Nat → Bool)
    (RAND_MAX N : Nat) (A : List Int) (i : Nat) (S Spp : List Int) (draws : List Nat)
    (hN : 0 < N) (hok : neighbor_draws_ok RAND_MAX N draws) (hlen : 4 ≤ draws.length) :
    ∃ j, j ≤ 4 ∧
      ∃ S1 Spp1, simulated_annealing_step accept RAND_MAX N A i S Spp draws =
        some (S1, Spp1, draws.drop j) := by
  obtain ⟨j, _, hj, Sp, e⟩ := standard_neighbor_returns RAND_MAX N S draws hN hok (by omega)
  by_cases hlt : standard_residue N A Sp < standard_residue N A S
  · refine ⟨j, by omega, ?_⟩
    simp [simulated_annealing_step, e, simulated_annealing_accept, hlt]
  · have hd : draws.drop j = draws.getD j 0 :: draws.drop (j + 1) := by
      rw [List.getD_eq_getElem _ _ (by omega)]
      exact List.drop_eq_getElem_cons (by omega)
    refine ⟨j + 1, by omega, ?_⟩
    simp [simulated_annealing_step, e, simulated_annealing_accept, hlt, hd, rand]

theorem simulated_annealing_loop_returns (accept : Nat → Int → Nat → Bool)
    (RAND_MAX N : Nat) (A : List Int) (hN : 0 < N) (n : Nat) :
    ∀ (i : Nat) (S Spp : List Int) (draws : List Nat), neighbor_draws_ok RAND_MAX N draws →
      4 * n ≤ draws.length →
      ∃ X, simulated_annealing_loop accept RAND_MAX N A n i S Spp draws = some X := by
  induction n with
  | zero => intro i S Spp draws _ _; exact ⟨_, rfl⟩
  | succ n ih =>
    intro i S Spp draws hok hlen
    obtain ⟨j, hj, S1, Spp1, e⟩ :=
      simulated_annealing_step_returns accept RAND_MAX N A i S Spp draws hN hok (by omega)
    simp only [simulated_annealing_loop, e]
    exact ih _ _ _ _ (neighbor_draws_ok_drop RAND_MAX N draws j hok)
      (by rw [List.length_drop]; omega)

theorem simulated_annealing_returns (accept : Nat → Int → Nat → Bool) (RAND_MAX N M : Nat)
    (A : List Int) (draws : List Nat) (hN : 0 < N)
    (hok : neighbor_draws_ok RAND_MAX N draws) (hlen : N + 4 * M ≤ draws.length) :
    ∃ r, simulated_annealing accept RAND_MAX N M A draws = some r := by
  obtain ⟨S0, e⟩ := standard_generate_loop_drop RAND_MAX N [] draws (by omega)
  obtain ⟨⟨S1, Spp1, d1⟩, e1⟩ := simulated_annealing_loop_returns accept RAND_MAX N A hN M 0
    S0 S0 (draws.drop N) (neighbor_draws_ok_drop RAND_MAX N draws N hok)
    (by rw [List.length_drop]; omega)
  exact ⟨standard_residue N A Spp1, by simp [simulated_annealing, standard_generate, e, e1]⟩

/-! ## Results of the local searches -/

end Partition
